import Mathlib

/-
Verification of the limit-order-book simulation core (order_book.py and
synthetic_data.py), shallowly embedded in Lean 4. Python floats are modelled
as exact rationals; the price-level dicts as insertion-ordered association
lists; the NumPy per-instance rng and the process-global random module as
explicit oracle streams.
-/

namespace LOB

/-- Epsilon threshold 1e-12 used by the source when deleting price levels. -/
def eps : ℚ := 1 / 1000000000000

/-- Floor of a rational, computed on the numerator and denominator (the
denominator is positive, so Euclidean division rounds toward minus infinity). -/
def ratFloor (q : ℚ) : ℤ := q.num / q.den

/-- Python round(x, 6): round to six decimal places, ties to even. -/
def pyRound6 (q : ℚ) : ℚ :=
  let s : ℚ := q * 1000000
  let f : ℤ := ratFloor s
  let frac : ℚ := s - f
  let r : ℤ :=
    if frac < 1/2 then f
    else if 1/2 < frac then f + 1
    else if f % 2 = 0 then f else f + 1
  (r : ℚ) / 1000000

/-- Side of the book: buy (BID) or sell (ASK). -/
inductive Side where
  | BID
  | ASK
deriving DecidableEq, Repr

/-- Order kinds. -/
inductive OrderType where
  | LIMIT
  | MARKET
  | CANCEL
deriving DecidableEq, Repr

/-- An order: kind, side, price (ignored for market orders) and volume. -/
structure Order where
  order_type : OrderType
  side : Side
  price : ℚ := 0
  volume : ℚ := 0
deriving DecidableEq, Repr

/-- Running counters updated after every order processed. -/
structure ExecutionStats where
  total_orders : ℕ := 0
  limit_orders : ℕ := 0
  market_orders : ℕ := 0
  cancel_orders : ℕ := 0
  total_volume_filled : ℚ := 0
  last_order : Option Order := none
deriving DecidableEq, Repr

/-- Immutable view of the order book at a single point in time. -/
structure BookSnapshot where
  bid_prices : List ℚ
  bid_volumes : List ℚ
  ask_prices : List ℚ
  ask_volumes : List ℚ
  best_bid : Option ℚ
  best_ask : Option ℚ
  mid_price : Option ℚ
  spread : Option ℚ
  timestamp : ℚ := 0
  stats : Option ExecutionStats := none
deriving DecidableEq, Repr

/-- Book state: the two price-to-volume dicts (in insertion order, as Python
dicts iterate), the last timestamp, and the running statistics. -/
structure LimitOrderBook where
  bids : List (ℚ × ℚ) := []
  asks : List (ℚ × ℚ) := []
  time : ℚ := 0
  stats : ExecutionStats := {}
deriving DecidableEq, Repr

/-- Python dict lookup book.get(p): the value at the first entry whose key is p. -/
def bookGet : List (ℚ × ℚ) → ℚ → Option ℚ
  | [], _ => none
  | (q, v) :: rest, p => if q = p then some v else bookGet rest p

/-- Python dict assignment book[p] = v: replace the entry in place if the key
exists, otherwise append a new entry at the end. -/
def bookSet : List (ℚ × ℚ) → ℚ → ℚ → List (ℚ × ℚ)
  | [], p, v => [(p, v)]
  | (q, w) :: rest, p, v =>
      if q = p then (q, v) :: rest else (q, w) :: bookSet rest p v

/-- Python del book[p]: drop the entry whose key is p. -/
def bookErase : List (ℚ × ℚ) → ℚ → List (ℚ × ℚ)
  | [], _ => []
  | (q, w) :: rest, p => if q = p then rest else (q, w) :: bookErase rest p

/-- The keys of a price-to-volume dict, in insertion order. -/
def keys (bk : List (ℚ × ℚ)) : List ℚ := bk.map Prod.fst

/-- Aggregate volume resting on one side. -/
def bookVol (bk : List (ℚ × ℚ)) : ℚ := (bk.map Prod.snd).sum

/-- Insert a value into an ascending-sorted list of prices. -/
def insertAsc (x : ℚ) : List ℚ → List ℚ
  | [] => [x]
  | y :: ys => if x ≤ y then x :: y :: ys else y :: insertAsc x ys

/-- Python sorted(...): ascending insertion sort. -/
def sortAsc : List ℚ → List ℚ
  | [] => []
  | x :: xs => insertAsc x (sortAsc xs)

/-- Python sorted(..., reverse=True). -/
def sortDesc (xs : List ℚ) : List ℚ := (sortAsc xs).reverse

/-- Python max over an iterable of prices, None when empty. -/
def listMax : List ℚ → Option ℚ
  | [] => none
  | x :: xs =>
      match listMax xs with
      | none => some x
      | some m => some (max x m)

/-- Python min over an iterable of prices, None when empty. -/
def listMin : List ℚ → Option ℚ
  | [] => none
  | x :: xs =>
      match listMin xs with
      | none => some x
      | some m => some (min x m)

/-- Property best_bid: max(self.bids) if nonempty else None. -/
def best_bid (b : LimitOrderBook) : Option ℚ := listMax (keys b.bids)

/-- Property best_ask: min(self.asks) if nonempty else None. -/
def best_ask (b : LimitOrderBook) : Option ℚ := listMin (keys b.asks)

/-- Property mid_price: round((best_bid + best_ask) / 2, 6) when both sides
are nonempty, None otherwise. -/
def mid_price (b : LimitOrderBook) : Option ℚ :=
  match best_bid b, best_ask b with
  | some bb, some ba => some (pyRound6 ((bb + ba) / 2))
  | _, _ => none

/-- Property spread: round(best_ask - best_bid, 6) when both sides are
nonempty, None otherwise. -/
def spread (b : LimitOrderBook) : Option ℚ :=
  match best_bid b, best_ask b with
  | some bb, some ba => some (pyRound6 (ba - bb))
  | _, _ => none

/-- Helper _add_limit on one side: book[price] = book.get(price, 0.0) + volume. -/
def addLimit (bk : List (ℚ × ℚ)) (price volume : ℚ) : List (ℚ × ℚ) :=
  bookSet bk price ((bookGet bk price).getD 0 + volume)

/-- Helper _cancel on one side: if the price exists, subtract the volume and
delete the level when it drops to at most eps; otherwise do nothing. -/
def cancelLevel (bk : List (ℚ × ℚ)) (price volume : ℚ) : List (ℚ × ℚ) :=
  match bookGet bk price with
  | none => bk
  | some v =>
      let bk1 := bookSet bk price (v - volume)
      if v - volume ≤ eps then bookErase bk1 price else bk1

/-- The level-consumption loop of _execute_market over a sorted price list:
stop when remaining is at most zero; otherwise fill min(available, remaining)
at the next price, delete the level when it drops to at most eps, and recurse.
Returns the updated side and the total volume filled. -/
def marketLoop : List ℚ → List (ℚ × ℚ) → ℚ → ℚ → List (ℚ × ℚ) × ℚ
  | [], bk, _, filled_total => (bk, filled_total)
  | price :: rest, bk, remaining, filled_total =>
      if remaining ≤ 0 then (bk, filled_total)
      else
        let available := (bookGet bk price).getD 0
        let filled := min available remaining
        let bk1 := bookSet bk price (available - filled)
        let bk2 := if available - filled ≤ eps then bookErase bk1 price else bk1
        marketLoop rest bk2 (remaining - filled) (filled_total + filled)

/-- Helper _execute_market: a market BID eats asks in ascending price order, a
market ASK eats bids in descending price order. Returns the updated book and
the total volume actually filled. -/
def executeMarket (b : LimitOrderBook) (side : Side) (volume : ℚ) :
    LimitOrderBook × ℚ :=
  match side with
  | Side.BID =>
      let r := marketLoop (sortAsc (keys b.asks)) b.asks volume 0
      ({ b with asks := r.1 }, r.2)
  | Side.ASK =>
      let r := marketLoop (sortDesc (keys b.bids)) b.bids volume 0
      ({ b with bids := r.1 }, r.2)

/-- Method snapshot: a frozen view of the current book state; reads the live
dicts, sorts the keys, and copies the statistics field by field. -/
def snapshot (b : LimitOrderBook) (timestamp : ℚ) : BookSnapshot :=
  let bid_prices := sortDesc (keys b.bids)
  let ask_prices := sortAsc (keys b.asks)
  { bid_prices := bid_prices
    bid_volumes := bid_prices.map (fun p => (bookGet b.bids p).getD 0)
    ask_prices := ask_prices
    ask_volumes := ask_prices.map (fun p => (bookGet b.asks p).getD 0)
    best_bid := best_bid b
    best_ask := best_ask b
    mid_price := mid_price b
    spread := spread b
    timestamp := timestamp
    stats := some b.stats }

/-- Method process_order: record the timestamp, bump the counters, dispatch on
the order kind, and return the updated book together with a fresh snapshot. -/
def processOrder (b : LimitOrderBook) (o : Order) (timestamp : ℚ) :
    LimitOrderBook × BookSnapshot :=
  let st : ExecutionStats :=
    { b.stats with
        total_orders := b.stats.total_orders + 1
        last_order := some o }
  let b1 : LimitOrderBook := { b with time := timestamp, stats := st }
  let b2 : LimitOrderBook :=
    match o.order_type with
    | OrderType.LIMIT =>
        let bl : LimitOrderBook :=
          { b1 with stats := { st with limit_orders := st.limit_orders + 1 } }
        match o.side with
        | Side.BID => { bl with bids := addLimit bl.bids o.price o.volume }
        | Side.ASK => { bl with asks := addLimit bl.asks o.price o.volume }
    | OrderType.MARKET =>
        let bm : LimitOrderBook :=
          { b1 with stats := { st with market_orders := st.market_orders + 1 } }
        let r := executeMarket bm o.side o.volume
        { r.1 with
            stats :=
              { r.1.stats with
                  total_volume_filled := r.1.stats.total_volume_filled + r.2 } }
    | OrderType.CANCEL =>
        let bc : LimitOrderBook :=
          { b1 with stats := { st with cancel_orders := st.cancel_orders + 1 } }
        match o.side with
        | Side.BID => { bc with bids := cancelLevel bc.bids o.price o.volume }
        | Side.ASK => { bc with asks := cancelLevel bc.asks o.price o.volume }
  (b2, snapshot b2 timestamp)

/-- Method reset: clear both sides, the time, and the statistics. -/
def reset (b : LimitOrderBook) : LimitOrderBook :=
  let _ := b
  {}

/-- Book state reached after an order, discarding the returned snapshot. -/
def afterOrder (b : LimitOrderBook) (o : Order) (t : ℚ) : LimitOrderBook :=
  (processOrder b o t).1

/-- All tuneable knobs for the synthetic data engine. -/
structure GeneratorConfig where
  initial_price : ℚ := 100
  tick_size : ℚ := 1 / 100
  n_initial_levels : ℕ := 8
  initial_vol_min : ℤ := 1
  initial_vol_max : ℤ := 10
  prob_limit : ℚ := 55 / 100
  prob_market : ℚ := 20 / 100
  prob_cancel : ℚ := 25 / 100
  limit_spread_ticks : ℤ := 15
  limit_vol_min : ℤ := 1
  limit_vol_max : ℤ := 8
  market_vol_min : ℤ := 1
  market_vol_max : ℤ := 5
  cancel_frac_min : ℚ := 1 / 5
  cancel_frac_max : ℚ := 1
  seed : ℤ := 42
deriving DecidableEq, Repr

/-- Method seed_book: for i = 1 .. n_initial_levels, place one BID limit order
at round(mid - i * tick, 6) and one ASK limit order at round(mid + i * tick, 6)
through process_order. The volumes come from the instance-local NumPy rng; its
successive rng.integers(initial_vol_min, initial_vol_max + 1) results are
modelled by the oracle vols, consumed in call order (the bid draw of iteration
i is vols (2 * (i - 1)), the ask draw is vols (2 * (i - 1) + 1)). -/
def seedBook (cfg : GeneratorConfig) (vols : ℕ → ℤ) (b : LimitOrderBook) :
    LimitOrderBook :=
  (List.range cfg.n_initial_levels).foldl
    (fun bk j =>
      let k : ℕ := 2 * j
      let i : ℚ := (j : ℚ) + 1
      let bid_price := pyRound6 (cfg.initial_price - i * cfg.tick_size)
      let ask_price := pyRound6 (cfg.initial_price + i * cfg.tick_size)
      let bid_vol : ℚ := ((vols k : ℤ) : ℚ)
      let ask_vol : ℚ := ((vols (k + 1) : ℤ) : ℚ)
      let bk1 := afterOrder bk
        { order_type := OrderType.LIMIT, side := Side.BID,
          price := bid_price, volume := bid_vol } 0
      afterOrder bk1
        { order_type := OrderType.LIMIT, side := Side.ASK,
          price := ask_price, volume := ask_vol } 0)
    b

/-- The state of the process-global Python random module: an abstract output
stream fixed by the seeding history, plus the current position in it. Every
module-level draw (by any code in the process) advances the position;
random.seed replaces the stream and rewinds the position. -/
structure PyRandomState where
  stream : ℕ → ℕ
  idx : ℕ

/-- A draw from the global random module performed by unrelated code in the
same process: it consumes one value, advancing the shared position. -/
def externalDraw (g : PyRandomState) : PyRandomState :=
  { g with idx := g.idx + 1 }

/-- Python random.choice on a nonempty list: selects an element determined by
the current global stream value and advances the global position. -/
def pyChoice {α : Type} (g : PyRandomState) (l : List α) :
    Option α × PyRandomState :=
  (l[g.stream g.idx % l.length]?, { g with idx := g.idx + 1 })

/-- Python `self.book.mid_price or self.cfg.initial_price`: the or-fallback
fires when mid_price is None and also when it is 0.0 (falsy). -/
def midOrInitial (cfg : GeneratorConfig) (b : LimitOrderBook) : ℚ :=
  match mid_price b with
  | some m => if m = 0 then cfg.initial_price else m
  | none => cfg.initial_price

/-- Method _random_limit. The instance-local NumPy draws are passed as
oracles: sideDraw is rng.random() (side is BID exactly when it is below 1/2),
offset is rng.integers(1, limit_spread_ticks + 1), and vol is
rng.integers(limit_vol_min, limit_vol_max + 1). -/
def randomLimit (cfg : GeneratorConfig) (b : LimitOrderBook)
    (sideDraw : ℚ) (offset vol : ℤ) : Order :=
  let side := if sideDraw < 1/2 then Side.BID else Side.ASK
  let mid := midOrInitial cfg b
  let price :=
    match side with
    | Side.BID => pyRound6 (mid - (offset : ℚ) * cfg.tick_size)
    | Side.ASK => pyRound6 (mid + (offset : ℚ) * cfg.tick_size)
  { order_type := OrderType.LIMIT, side := side, price := price,
    volume := (vol : ℚ) }

/-- Method _random_cancel: snapshot the book, list the occupied (side, price,
volume) triples of both sides, pick one with random.choice — a draw from the
PROCESS-GLOBAL random module state g, not from the instance-local NumPy rng —
and cancel round(volume * frac, 6) at that price. frac is the instance-local
rng.uniform(cancel_frac_min, cancel_frac_max) result, passed as an oracle;
sideDraw, offset and vol feed the _random_limit fallback used when the book
has no levels at all. Returns the order and the advanced global state. -/
def randomCancel (cfg : GeneratorConfig) (b : LimitOrderBook)
    (g : PyRandomState) (frac sideDraw : ℚ) (offset vol : ℤ) :
    Order × PyRandomState :=
  let snap := snapshot b 0
  let bid_levels := snap.bid_prices.zip snap.bid_volumes
  let ask_levels := snap.ask_prices.zip snap.ask_volumes
  let all_levels :=
    bid_levels.map (fun pv => (Side.BID, pv.1, pv.2)) ++
    ask_levels.map (fun pv => (Side.ASK, pv.1, pv.2))
  if all_levels.isEmpty then (randomLimit cfg b sideDraw offset vol, g)
  else
    let pick := pyChoice g all_levels
    match pick.1 with
    | none => (randomLimit cfg b sideDraw offset vol, pick.2)
    | some spv =>
        ({ order_type := OrderType.CANCEL, side := spv.1, price := spv.2.1,
           volume := pyRound6 (spv.2.2 * frac) }, pick.2)

/-! Basic lemmas about the dict operations. -/

theorem bookGet_bookSet_self (bk : List (ℚ × ℚ)) (p v : ℚ) :
    bookGet (bookSet bk p v) p = some v := by
  induction bk with
  | nil => simp [bookSet, bookGet]
  | cons e rest ih =>
      by_cases h : e.1 = p
      · simp [bookSet, bookGet, h]
      · simp [bookSet, bookGet, h, ih]

theorem bookGet_bookSet_ne (bk : List (ℚ × ℚ)) (p v q : ℚ) (h : q ≠ p) :
    bookGet (bookSet bk p v) q = bookGet bk q := by
  induction bk with
  | nil => simp [bookSet, bookGet, Ne.symm h]
  | cons e rest ih =>
      by_cases he : e.1 = p
      · simp [bookSet, bookGet, he, Ne.symm h]
      · simp [bookSet, bookGet, he, ih]

theorem bookGet_bookErase_ne (bk : List (ℚ × ℚ)) (p q : ℚ) (h : q ≠ p) :
    bookGet (bookErase bk p) q = bookGet bk q := by
  induction bk with
  | nil => simp [bookErase]
  | cons e rest ih =>
      by_cases he : e.1 = p
      · simp [bookErase, bookGet, he, Ne.symm h]
      · simp [bookErase, bookGet, he, ih]

theorem mem_keys_iff_bookGet (bk : List (ℚ × ℚ)) (p : ℚ) :
    p ∈ keys bk ↔ ∃ v, bookGet bk p = some v := by
  induction bk with
  | nil => simp [keys, bookGet]
  | cons e rest ih =>
      by_cases he : e.1 = p
      · simp [keys, bookGet, he]
      · simpa [keys, bookGet, he, Ne.symm he] using ih

theorem bookGet_eq_none_of_not_mem (bk : List (ℚ × ℚ)) (p : ℚ)
    (h : p ∉ keys bk) : bookGet bk p = none := by
  rcases hg : bookGet bk p with _ | v
  · rfl
  · exact absurd ((mem_keys_iff_bookGet bk p).2 ⟨v, hg⟩) h

theorem bookGet_mem (bk : List (ℚ × ℚ)) (p v : ℚ) (h : bookGet bk p = some v) :
    (p, v) ∈ bk := by
  induction bk with
  | nil => simp [bookGet] at h
  | cons e rest ih =>
      by_cases he : e.1 = p
      · simp only [bookGet, if_pos he, Option.some_inj] at h
        exact List.mem_cons.2 (Or.inl (by rw [← he, ← h]))
      · simp only [bookGet, if_neg he] at h
        exact List.mem_cons_of_mem e (ih h)

theorem bookGet_bookErase_self (bk : List (ℚ × ℚ)) (p : ℚ)
    (h : (keys bk).Nodup) : bookGet (bookErase bk p) p = none := by
  induction bk with
  | nil => simp [bookErase, bookGet]
  | cons e rest ih =>
      simp only [keys, List.map_cons, List.nodup_cons] at h
      by_cases he : e.1 = p
      · subst he
        simp only [bookErase, if_pos rfl]
        exact bookGet_eq_none_of_not_mem rest e.1 h.1
      · simp only [bookErase, if_neg he, bookGet, if_neg he]
        exact ih h.2

theorem keys_bookSet_of_mem (bk : List (ℚ × ℚ)) (p v : ℚ)
    (h : p ∈ keys bk) : keys (bookSet bk p v) = keys bk := by
  induction bk with
  | nil => simp [keys] at h
  | cons e rest ih =>
      by_cases he : e.1 = p
      · simp [bookSet, he, keys]
      · simp only [keys, List.map_cons, List.mem_cons] at h
        rcases h with h | h
        · exact absurd h.symm he
        · have hk : keys (bookSet rest p v) = keys rest := ih h
          simp only [bookSet, if_neg he, keys, List.map_cons]
          simp only [keys] at hk
          rw [hk]

theorem keys_bookErase_sublist (bk : List (ℚ × ℚ)) (p : ℚ) :
    (keys (bookErase bk p)).Sublist (keys bk) := by
  induction bk with
  | nil => simp [bookErase]
  | cons e rest ih =>
      by_cases he : e.1 = p
      · simp only [bookErase, if_pos he, keys]
        exact List.sublist_cons_self e.1 (keys rest)
      · simpa [bookErase, he, keys] using List.Sublist.cons₂ e.1 ih

theorem nodup_keys_bookSet (bk : List (ℚ × ℚ)) (p v : ℚ)
    (h : (keys bk).Nodup) : (keys (bookSet bk p v)).Nodup := by
  induction bk with
  | nil => simp [bookSet, keys]
  | cons e rest ih =>
      simp only [keys, List.map_cons, List.nodup_cons] at h
      by_cases he : e.1 = p
      · simp only [bookSet, if_pos he, keys, List.map_cons, List.nodup_cons]
        exact ⟨h.1, h.2⟩
      · simp only [bookSet, if_neg he, keys, List.map_cons, List.nodup_cons]
        constructor
        · intro hmem
          rcases (mem_keys_iff_bookGet _ _).1 hmem with ⟨w, hw⟩
          by_cases hep : e.1 = p
          · exact he hep
          · rw [bookGet_bookSet_ne rest p v e.1 hep] at hw
            exact h.1 ((mem_keys_iff_bookGet rest e.1).2 ⟨w, hw⟩)
        · exact ih h.2

theorem nodup_keys_bookErase (bk : List (ℚ × ℚ)) (p : ℚ)
    (h : (keys bk).Nodup) : (keys (bookErase bk p)).Nodup :=
  (keys_bookErase_sublist bk p).nodup h

theorem mem_bookSet (bk : List (ℚ × ℚ)) (p v : ℚ) (e : ℚ × ℚ)
    (h : e ∈ bookSet bk p v) : e ∈ bk ∨ e = (p, v) := by
  induction bk with
  | nil => simpa [bookSet] using h
  | cons f rest ih =>
      by_cases hf : f.1 = p
      · simp only [bookSet, if_pos hf] at h
        rcases List.mem_cons.1 h with h | h
        · right
          rw [h, ← hf]
        · exact Or.inl (List.mem_cons_of_mem f h)
      · simp only [bookSet, if_neg hf] at h
        rcases List.mem_cons.1 h with h | h
        · exact Or.inl (h ▸ List.mem_cons_self f rest)
        · rcases ih h with h | h
          · exact Or.inl (List.mem_cons_of_mem f h)
          · exact Or.inr h

theorem mem_bookErase (bk : List (ℚ × ℚ)) (p : ℚ) (e : ℚ × ℚ)
    (h : e ∈ bookErase bk p) : e ∈ bk := by
  induction bk with
  | nil => simp [bookErase] at h
  | cons f rest ih =>
      by_cases hf : f.1 = p
      · simp only [bookErase, if_pos hf] at h
        exact List.mem_cons_of_mem f h
      · simp only [bookErase, if_neg hf] at h
        rcases List.mem_cons.1 h with h | h
        · exact h ▸ List.mem_cons_self f rest
        · exact List.mem_cons_of_mem f (ih h)

theorem bookVol_bookSet (bk : List (ℚ × ℚ)) (p v w : ℚ)
    (h : bookGet bk p = some w) :
    bookVol (bookSet bk p v) = bookVol bk - w + v := by
  induction bk with
  | nil => simp [bookGet] at h
  | cons e rest ih =>
      by_cases he : e.1 = p
      · simp only [bookGet, if_pos he, Option.some_inj] at h
        simp only [bookSet, if_pos he, bookVol, List.map_cons, List.sum_cons, h]
        ring
      · simp only [bookGet, if_neg he] at h
        simp only [bookSet, if_neg he, bookVol, List.map_cons, List.sum_cons]
        have := ih h
        simp only [bookVol] at this
        rw [this]
        ring

theorem bookVol_bookErase (bk : List (ℚ × ℚ)) (p w : ℚ)
    (h : bookGet bk p = some w) :
    bookVol (bookErase bk p) = bookVol bk - w := by
  induction bk with
  | nil => simp [bookGet] at h
  | cons e rest ih =>
      by_cases he : e.1 = p
      · simp only [bookGet, if_pos he, Option.some_inj] at h
        simp only [bookErase, if_pos he, bookVol, List.map_cons, List.sum_cons, h]
        ring
      · simp only [bookGet, if_neg he] at h
        simp only [bookErase, if_neg he, bookVol, List.map_cons, List.sum_cons]
        have := ih h
        simp only [bookVol] at this
        rw [this]
        ring

theorem bookErase_bookSet (bk : List (ℚ × ℚ)) (p v : ℚ) :
    bookErase (bookSet bk p v) p = bookErase bk p := by
  induction bk with
  | nil => simp [bookSet, bookErase]
  | cons e rest ih =>
      by_cases he : e.1 = p
      · simp [bookSet, bookErase, he]
      · simp [bookSet, bookErase, he, ih]

/-! Lemmas about sorting and the Python max / min folds. -/

theorem insertAsc_perm (x : ℚ) (l : List ℚ) : (insertAsc x l).Perm (x :: l) := by
  induction l with
  | nil => simp [insertAsc]
  | cons y ys ih =>
      by_cases h : x ≤ y
      · simp [insertAsc, h]
      · simp only [insertAsc, if_neg h]
        exact (ih.cons y).trans (List.Perm.swap x y ys)

theorem sortAsc_perm (l : List ℚ) : (sortAsc l).Perm l := by
  induction l with
  | nil => simp [sortAsc]
  | cons x xs ih => exact (insertAsc_perm x (sortAsc xs)).trans (ih.cons x)

theorem insertAsc_sorted (x : ℚ) (l : List ℚ)
    (h : l.Sorted (· ≤ ·)) : (insertAsc x l).Sorted (· ≤ ·) := by
  induction l with
  | nil => simp [insertAsc]
  | cons y ys ih =>
      rcases List.sorted_cons.1 h with ⟨hy, hys⟩
      by_cases hxy : x ≤ y
      · simp only [insertAsc, if_pos hxy]
        refine List.sorted_cons.2 ⟨?_, h⟩
        intro b hb
        rcases List.mem_cons.1 hb with hb | hb
        · exact hb ▸ hxy
        · exact le_trans hxy (hy b hb)
      · simp only [insertAsc, if_neg hxy]
        refine List.sorted_cons.2 ⟨?_, ih hys⟩
        intro b hb
        rcases List.mem_cons.1 ((insertAsc_perm x ys).mem_iff.1 hb) with hb | hb
        · exact hb ▸ le_of_lt (lt_of_not_le hxy)
        · exact hy b hb

theorem sortAsc_sorted (l : List ℚ) : (sortAsc l).Sorted (· ≤ ·) := by
  induction l with
  | nil => simp [sortAsc]
  | cons x xs ih => exact insertAsc_sorted x (sortAsc xs) ih

theorem sortAsc_pairwise_lt (l : List ℚ) (h : l.Nodup) :
    (sortAsc l).Pairwise (· < ·) := by
  have hs : (sortAsc l).Sorted (· ≤ ·) := sortAsc_sorted l
  have hn : (sortAsc l).Nodup := (sortAsc_perm l).nodup_iff.2 h
  have := List.Pairwise.and hs hn
  exact this.imp (fun hab => lt_of_le_of_ne hab.1 hab.2)

theorem sortDesc_pairwise_gt (l : List ℚ) (h : l.Nodup) :
    (sortDesc l).Pairwise (· > ·) := by
  unfold sortDesc
  exact (List.pairwise_reverse).2 (sortAsc_pairwise_lt l h)

theorem mem_sortAsc (l : List ℚ) (x : ℚ) : x ∈ sortAsc l ↔ x ∈ l :=
  (sortAsc_perm l).mem_iff

theorem mem_sortDesc (l : List ℚ) (x : ℚ) : x ∈ sortDesc l ↔ x ∈ l := by
  unfold sortDesc
  rw [List.mem_reverse]
  exact mem_sortAsc l x

theorem listMax_eq_none_iff (l : List ℚ) : listMax l = none ↔ l = [] := by
  cases l with
  | nil => simp [listMax]
  | cons x xs =>
      simp only [listMax]
      cases listMax xs <;> simp

theorem listMax_spec (l : List ℚ) (m : ℚ) (h : listMax l = some m) :
    m ∈ l ∧ ∀ x ∈ l, x ≤ m := by
  induction l generalizing m with
  | nil => simp [listMax] at h
  | cons x xs ih =>
      simp only [listMax] at h
      rcases hm : listMax xs with _ | m'
      · rw [hm] at h
        have hx : m = x := by
          simpa using h.symm
        subst hx
        have hnil : xs = [] := (listMax_eq_none_iff xs).1 hm
        subst hnil
        simp
      · rw [hm] at h
        have hx : m = max x m' := by
          simpa using h.symm
        subst hx
        rcases ih m' hm with ⟨hmem, hle⟩
        constructor
        · rcases le_total x m' with hc | hc
          · simp only [max_eq_right hc]
            exact List.mem_cons_of_mem x hmem
          · simp only [max_eq_left hc]
            exact List.mem_cons_self x xs
        · intro y hy
          rcases List.mem_cons.1 hy with hy | hy
          · exact hy ▸ le_max_left x m'
          · exact le_trans (hle y hy) (le_max_right x m')

theorem listMin_eq_none_iff (l : List ℚ) : listMin l = none ↔ l = [] := by
  cases l with
  | nil => simp [listMin]
  | cons x xs =>
      simp only [listMin]
      cases listMin xs <;> simp

theorem listMin_spec (l : List ℚ) (m : ℚ) (h : listMin l = some m) :
    m ∈ l ∧ ∀ x ∈ l, m ≤ x := by
  induction l generalizing m with
  | nil => simp [listMin] at h
  | cons x xs ih =>
      simp only [listMin] at h
      rcases hm : listMin xs with _ | m'
      · rw [hm] at h
        have hx : m = x := by
          simpa using h.symm
        subst hx
        have hnil : xs = [] := (listMin_eq_none_iff xs).1 hm
        subst hnil
        simp
      · rw [hm] at h
        have hx : m = min x m' := by
          simpa using h.symm
        subst hx
        rcases ih m' hm with ⟨hmem, hle⟩
        constructor
        · rcases le_total x m' with hc | hc
          · simp only [min_eq_left hc]
            exact List.mem_cons_self x xs
          · simp only [min_eq_right hc]
            exact List.mem_cons_of_mem x hmem
        · intro y hy
          rcases List.mem_cons.1 hy with hy | hy
          · exact hy ▸ min_le_left x m'
          · exact le_trans (min_le_right x m') (hle y hy)

/-! Analysis of the market-order consumption loop. -/

/-- Sum of the volumes found at a list of prices. -/
def sumOn (bk : List (ℚ × ℚ)) (ps : List ℚ) : ℚ :=
  (ps.map (fun p => (bookGet bk p).getD 0)).sum

/-- Sum of the volumes found at the prices of ps that precede q in the
consumption order r. -/
def volBeforeOn (r : ℚ → ℚ → Bool) (bk : List (ℚ × ℚ)) (ps : List ℚ)
    (q : ℚ) : ℚ :=
  ((ps.filter (fun p => r p q)).map (fun p => (bookGet bk p).getD 0)).sum

/-- Aggregate volume resting strictly below price q on a side. -/
def volCheaper (bk : List (ℚ × ℚ)) (q : ℚ) : ℚ :=
  ((bk.filter (fun e => e.1 < q)).map Prod.snd).sum

/-- Aggregate volume resting strictly above price q on a side. -/
def volAbove (bk : List (ℚ × ℚ)) (q : ℚ) : ℚ :=
  ((bk.filter (fun e => q < e.1)).map Prod.snd).sum

/-- Well-formed side: no duplicate price keys, all volumes nonnegative. -/
def WFBook (bk : List (ℚ × ℚ)) : Prop :=
  (keys bk).Nodup ∧ ∀ e ∈ bk, 0 ≤ e.2

/-- One iteration of the consumption loop on the book component. -/
def stepBook (bk : List (ℚ × ℚ)) (p rem : ℚ) : List (ℚ × ℚ) :=
  let available := (bookGet bk p).getD 0
  let filled := min available rem
  let bk1 := bookSet bk p (available - filled)
  if available - filled ≤ eps then bookErase bk1 p else bk1

theorem marketLoop_cons_pos (p : ℚ) (rest : List ℚ) (bk : List (ℚ × ℚ))
    (rem acc : ℚ) (h : ¬ rem ≤ 0) :
    marketLoop (p :: rest) bk rem acc =
      marketLoop rest (stepBook bk p rem)
        (rem - min ((bookGet bk p).getD 0) rem)
        (acc + min ((bookGet bk p).getD 0) rem) := by
  simp only [marketLoop, if_neg h, stepBook]

theorem marketLoop_of_nonpos (ps : List ℚ) (bk : List (ℚ × ℚ)) (rem acc : ℚ)
    (h : rem ≤ 0) : marketLoop ps bk rem acc = (bk, acc) := by
  cases ps with
  | nil => rfl
  | cons p rest => simp [marketLoop, h]

theorem stepBook_get_ne (bk : List (ℚ × ℚ)) (p rem q : ℚ) (h : q ≠ p) :
    bookGet (stepBook bk p rem) q = bookGet bk q := by
  unfold stepBook
  by_cases hc : (bookGet bk p).getD 0 - min ((bookGet bk p).getD 0) rem ≤ eps
  · rw [if_pos hc, bookGet_bookErase_ne _ _ _ h, bookGet_bookSet_ne _ _ _ _ h]
  · rw [if_neg hc, bookGet_bookSet_ne _ _ _ _ h]

theorem stepBook_nodup (bk : List (ℚ × ℚ)) (p rem : ℚ)
    (h : (keys bk).Nodup) : (keys (stepBook bk p rem)).Nodup := by
  unfold stepBook
  by_cases hc : (bookGet bk p).getD 0 - min ((bookGet bk p).getD 0) rem ≤ eps
  · rw [if_pos hc]
    exact nodup_keys_bookErase _ _ (nodup_keys_bookSet _ _ _ h)
  · rw [if_neg hc]
    exact nodup_keys_bookSet _ _ _ h

theorem stepBook_get_self (bk : List (ℚ × ℚ)) (p rem vp : ℚ)
    (hnd : (keys bk).Nodup) (hvp : bookGet bk p = some vp) :
    bookGet (stepBook bk p rem) p =
      (if vp - min vp rem ≤ eps then none else some (vp - min vp rem)) := by
  unfold stepBook
  rw [hvp]
  simp only [Option.getD_some]
  by_cases hc : vp - min vp rem ≤ eps
  · rw [if_pos hc, if_pos hc, bookErase_bookSet, bookGet_bookErase_self _ _ hnd]
  · rw [if_neg hc, if_neg hc, bookGet_bookSet_self]

theorem stepBook_vol (bk : List (ℚ × ℚ)) (p rem vp : ℚ)
    (hvp : bookGet bk p = some vp) :
    bookVol (stepBook bk p rem) =
      (if vp - min vp rem ≤ eps then bookVol bk - vp
       else bookVol bk - min vp rem) := by
  unfold stepBook
  rw [hvp]
  simp only [Option.getD_some]
  by_cases hc : vp - min vp rem ≤ eps
  · rw [if_pos hc, if_pos hc]
    have h1 : bookGet (bookSet bk p (vp - min vp rem)) p = some (vp - min vp rem) :=
      bookGet_bookSet_self bk p _
    rw [bookVol_bookErase _ _ _ h1, bookVol_bookSet _ _ _ _ hvp]
    ring
  · rw [if_neg hc, if_neg hc, bookVol_bookSet _ _ _ _ hvp]
    ring

theorem volBeforeOn_nonneg (r : ℚ → ℚ → Bool) (bk : List (ℚ × ℚ))
    (ps : List ℚ) (q : ℚ)
    (hkeys : ∀ p ∈ ps, 0 ≤ (bookGet bk p).getD 0) :
    0 ≤ volBeforeOn r bk ps q := by
  unfold volBeforeOn
  refine List.sum_nonneg ?_
  intro x hx
  rcases List.mem_map.1 hx with ⟨p, hp, rfl⟩
  exact hkeys p (List.mem_of_mem_filter hp)

theorem sumOn_nonneg (bk : List (ℚ × ℚ)) (ps : List ℚ)
    (hkeys : ∀ p ∈ ps, 0 ≤ (bookGet bk p).getD 0) :
    0 ≤ sumOn bk ps := by
  unfold sumOn
  refine List.sum_nonneg ?_
  intro x hx
  rcases List.mem_map.1 hx with ⟨p, hp, rfl⟩
  exact hkeys p hp

theorem volBeforeOn_congr (r : ℚ → ℚ → Bool) (bk bk2 : List (ℚ × ℚ))
    (ps : List ℚ) (q : ℚ)
    (h : ∀ p ∈ ps, bookGet bk2 p = bookGet bk p) :
    volBeforeOn r bk2 ps q = volBeforeOn r bk ps q := by
  unfold volBeforeOn
  congr 1
  refine List.map_congr_left ?_
  intro p hp
  rw [h p (List.mem_of_mem_filter hp)]

theorem sumOn_congr (bk bk2 : List (ℚ × ℚ)) (ps : List ℚ)
    (h : ∀ p ∈ ps, bookGet bk2 p = bookGet bk p) :
    sumOn bk2 ps = sumOn bk ps := by
  unfold sumOn
  congr 1
  refine List.map_congr_left ?_
  intro p hp
  rw [h p hp]

theorem marketLoop_get_not_mem (ps : List ℚ) (bk : List (ℚ × ℚ))
    (rem acc q : ℚ) (hq : q ∉ ps) :
    bookGet (marketLoop ps bk rem acc).1 q = bookGet bk q := by
  induction ps generalizing bk rem acc with
  | nil => rfl
  | cons p rest ih =>
      by_cases hrem : rem ≤ 0
      · rw [marketLoop_of_nonpos _ _ _ _ hrem]
      · rw [marketLoop_cons_pos _ _ _ _ _ hrem]
        have hqp : q ≠ p := fun h => hq (h ▸ List.mem_cons_self p rest)
        have hqr : q ∉ rest := fun h => hq (List.mem_cons_of_mem p h)
        rw [ih _ _ _ hqr, stepBook_get_ne _ _ _ _ hqp]

theorem marketLoop_get_mem (r : ℚ → ℚ → Bool)
    (hirr : ∀ x, r x x = false)
    (hasym : ∀ a b, r a b = true → r b a = false)
    (ps : List ℚ) (bk : List (ℚ × ℚ)) (rem acc : ℚ)
    (hps : ps.Pairwise (fun a b => r a b = true))
    (hnd : (keys bk).Nodup)
    (hkeys : ∀ p ∈ ps, ∃ v, bookGet bk p = some v ∧ 0 ≤ v)
    (q : ℚ) (hq : q ∈ ps) :
    bookGet (marketLoop ps bk rem acc).1 q =
      (if rem ≤ volBeforeOn r bk ps q then bookGet bk q
       else if volBeforeOn r bk ps q + (bookGet bk q).getD 0 - rem ≤ eps then
         none
       else some (volBeforeOn r bk ps q + (bookGet bk q).getD 0 - rem)) := by
  induction ps generalizing bk rem acc with
  | nil => cases hq
  | cons p rest ih =>
      have hpairs := List.pairwise_cons.1 hps
      obtain ⟨vp, hvp, hvp0⟩ := hkeys p (List.mem_cons_self p rest)
      have hnn : ∀ x ∈ p :: rest, 0 ≤ (bookGet bk x).getD 0 := by
        intro x hx
        obtain ⟨v, hv, h0⟩ := hkeys x hx
        rw [hv]
        exact h0
      by_cases hrem : rem ≤ 0
      · rw [marketLoop_of_nonpos _ _ _ _ hrem]
        have hB : 0 ≤ volBeforeOn r bk (p :: rest) q :=
          volBeforeOn_nonneg r bk (p :: rest) q hnn
        rw [if_pos (le_trans hrem hB)]
      · rw [marketLoop_cons_pos _ _ _ _ _ hrem, hvp]
        simp only [Option.getD_some]
        rcases List.mem_cons.1 hq with rfl | hq
        · have hqr : q ∉ rest := by
            intro hmem
            have := hpairs.1 q hmem
            rw [hirr q] at this
            exact Bool.false_ne_true this
          have hB0 : volBeforeOn r bk (q :: rest) q = 0 := by
            unfold volBeforeOn
            have hfil : List.filter (fun x => r x q) (q :: rest) = [] := by
              rw [List.filter_eq_nil_iff]
              intro a ha
              rcases List.mem_cons.1 ha with rfl | ha
              · simp [hirr a]
              · simp [hasym q a (hpairs.1 a ha)]
            rw [hfil]
            rfl
          rw [marketLoop_get_not_mem _ _ _ _ _ hqr,
            stepBook_get_self bk q rem vp hnd hvp, hB0, hvp]
          simp only [Option.getD_some]
          rw [if_neg (by linarith : ¬ rem ≤ (0:ℚ))]
          rcases le_or_lt vp rem with hc | hc
          · rw [min_eq_left hc]
            rw [if_pos (by norm_num [eps] : vp - vp ≤ eps),
              if_pos (by norm_num [eps]; linarith : (0:ℚ) + vp - rem ≤ eps)]
          · rw [min_eq_right hc.le,
              show (0:ℚ) + vp - rem = vp - rem from by ring]
        · have hqp : q ≠ p := by
            intro h
            have := hpairs.1 q hq
            rw [h, hirr p] at this
            exact Bool.false_ne_true this
          have hchg : ∀ x ∈ rest, bookGet (stepBook bk p rem) x = bookGet bk x := by
            intro x hx
            have hxp : x ≠ p := by
              intro h
              have := hpairs.1 x hx
              rw [h, hirr p] at this
              exact Bool.false_ne_true this
            exact stepBook_get_ne bk p rem x hxp
          have hkeys2 : ∀ x ∈ rest, ∃ v, bookGet (stepBook bk p rem) x = some v ∧ 0 ≤ v := by
            intro x hx
            rw [hchg x hx]
            exact hkeys x (List.mem_cons_of_mem p hx)
          have hnd2 := stepBook_nodup bk p rem hnd
          rw [ih (stepBook bk p rem) (rem - min vp rem) _ hpairs.2 hnd2 hkeys2 hq]
          rw [volBeforeOn_congr r bk (stepBook bk p rem) rest q hchg, hchg q hq]
          have hBsplit : volBeforeOn r bk (p :: rest) q =
              vp + volBeforeOn r bk rest q := by
            unfold volBeforeOn
            rw [List.filter_cons_of_pos (by simpa using hpairs.1 q hq)]
            rw [List.map_cons, List.sum_cons, hvp]
            rfl
          rw [hBsplit]
          have hB'nn : 0 ≤ volBeforeOn r bk rest q :=
            volBeforeOn_nonneg r bk rest q
              (fun x hx => hnn x (List.mem_cons_of_mem p hx))
          rcases le_or_lt vp rem with hc | hc
          · rw [min_eq_left hc]
            rw [show volBeforeOn r bk rest q + (bookGet bk q).getD 0 - (rem - vp) =
                vp + volBeforeOn r bk rest q + (bookGet bk q).getD 0 - rem from by
              ring]
            simp only [show (rem - vp ≤ volBeforeOn r bk rest q) ↔
                (rem ≤ vp + volBeforeOn r bk rest q) from
              ⟨fun h => by linarith, fun h => by linarith⟩]
          · rw [min_eq_right hc.le, sub_self]
            rw [if_pos hB'nn, if_pos (by linarith : rem ≤ vp + volBeforeOn r bk rest q)]

theorem marketLoop_filled (ps : List ℚ) (bk : List (ℚ × ℚ)) (rem acc : ℚ)
    (hndps : ps.Nodup)
    (hkeys : ∀ p ∈ ps, ∃ v, bookGet bk p = some v ∧ 0 ≤ v)
    (hrem : 0 ≤ rem) :
    (marketLoop ps bk rem acc).2 = acc + min rem (sumOn bk ps) := by
  induction ps generalizing bk rem acc with
  | nil =>
      show acc = acc + min rem (sumOn bk [])
      have : sumOn bk [] = 0 := rfl
      rw [this, min_eq_right hrem]
      ring
  | cons p rest ih =>
      obtain ⟨vp, hvp, hvp0⟩ := hkeys p (List.mem_cons_self p rest)
      have hnds := List.nodup_cons.1 hndps
      have hnn : ∀ x ∈ rest, 0 ≤ (bookGet bk x).getD 0 := by
        intro x hx
        obtain ⟨v, hv, h0⟩ := hkeys x (List.mem_cons_of_mem p hx)
        rw [hv]
        exact h0
      have hS'nn : 0 ≤ sumOn bk rest := sumOn_nonneg bk rest hnn
      have hSsplit : sumOn bk (p :: rest) = vp + sumOn bk rest := by
        unfold sumOn
        rw [List.map_cons, List.sum_cons, hvp]
        rfl
      by_cases hrem0 : rem ≤ 0
      · have h0 : rem = 0 := le_antisymm hrem0 hrem
        subst h0
        rw [marketLoop_of_nonpos _ _ _ _ le_rfl, hSsplit,
          min_eq_left (by linarith)]
        show acc = acc + 0
        ring
      · rw [marketLoop_cons_pos _ _ _ _ _ hrem0, hvp]
        simp only [Option.getD_some]
        have hchg : ∀ x ∈ rest, bookGet (stepBook bk p rem) x = bookGet bk x := by
          intro x hx
          exact stepBook_get_ne bk p rem x (fun h => hnds.1 (h ▸ hx))
        have hkeys2 : ∀ x ∈ rest, ∃ v, bookGet (stepBook bk p rem) x = some v ∧ 0 ≤ v := by
          intro x hx
          rw [hchg x hx]
          exact hkeys x (List.mem_cons_of_mem p hx)
        have hrem' : 0 ≤ rem - min vp rem := by
          rcases le_total vp rem with h | h
          · rw [min_eq_left h]
            linarith
          · rw [min_eq_right h]
            linarith
        rw [ih (stepBook bk p rem) _ _ hnds.2 hkeys2 hrem']
        rw [sumOn_congr bk (stepBook bk p rem) rest hchg, hSsplit]
        rcases le_total vp rem with hc | hc
        · rw [min_eq_left hc]
          have hmm : vp + min (rem - vp) (sumOn bk rest) =
              min rem (vp + sumOn bk rest) := by
            rw [← min_add_add_left]
            congr 1
            ring
          rw [← hmm]
          ring
        · rw [min_eq_right hc, sub_self, min_eq_left hS'nn,
            min_eq_left (by linarith : rem ≤ vp + sumOn bk rest)]
          ring

theorem marketLoop_vol (ps : List ℚ) (bk : List (ℚ × ℚ)) (rem acc : ℚ)
    (hndps : ps.Nodup) (hnd : (keys bk).Nodup)
    (hkeys : ∀ p ∈ ps, ∃ v, bookGet bk p = some v ∧ 0 ≤ v) :
    (marketLoop ps bk rem acc).2 - acc ≤
      bookVol bk - bookVol (marketLoop ps bk rem acc).1 ∧
    bookVol bk - bookVol (marketLoop ps bk rem acc).1 ≤
      (marketLoop ps bk rem acc).2 - acc + eps := by
  induction ps generalizing bk rem acc with
  | nil =>
      show acc - acc ≤ bookVol bk - bookVol bk ∧
        bookVol bk - bookVol bk ≤ acc - acc + eps
      norm_num [eps]
  | cons p rest ih =>
      by_cases hrem : rem ≤ 0
      · rw [marketLoop_of_nonpos _ _ _ _ hrem]
        norm_num [eps]
      · obtain ⟨vp, hvp, hvp0⟩ := hkeys p (List.mem_cons_self p rest)
        have hnds := List.nodup_cons.1 hndps
        have hchg : ∀ x ∈ rest, bookGet (stepBook bk p rem) x = bookGet bk x := by
          intro x hx
          exact stepBook_get_ne bk p rem x (fun h => hnds.1 (h ▸ hx))
        have hkeys2 : ∀ x ∈ rest, ∃ v, bookGet (stepBook bk p rem) x = some v ∧ 0 ≤ v := by
          intro x hx
          rw [hchg x hx]
          exact hkeys x (List.mem_cons_of_mem p hx)
        have hnd2 := stepBook_nodup bk p rem hnd
        have hvol2 := stepBook_vol bk p rem vp hvp
        rw [marketLoop_cons_pos _ _ _ _ _ hrem, hvp]
        simp only [Option.getD_some]
        rcases le_or_lt (vp - min vp rem) eps with hereps | hereps
        · rw [if_pos hereps] at hvol2
          rcases le_or_lt vp rem with hc | hc
          · rw [min_eq_left hc]
            obtain ⟨ih1, ih2⟩ :=
              ih (stepBook bk p rem) (rem - vp) (acc + vp) hnds.2 hnd2 hkeys2
            constructor
            · linarith
            · linarith
          · rw [min_eq_right hc.le]
            rw [sub_self, marketLoop_of_nonpos _ _ _ _ le_rfl]
            rw [min_eq_right hc.le] at hereps
            constructor
            · simp only
              linarith
            · simp only
              linarith
        · rw [if_neg (not_le.2 hereps)] at hvol2
          obtain ⟨ih1, ih2⟩ :=
            ih (stepBook bk p rem) (rem - min vp rem) (acc + min vp rem)
              hnds.2 hnd2 hkeys2
          constructor
          · linarith
          · linarith

theorem sumOn_perm (bk : List (ℚ × ℚ)) (ps qs : List ℚ) (h : ps.Perm qs) :
    sumOn bk ps = sumOn bk qs := by
  unfold sumOn
  exact (h.map (fun p => (bookGet bk p).getD 0)).sum_eq

theorem volBeforeOn_perm (r : ℚ → ℚ → Bool) (bk : List (ℚ × ℚ))
    (ps qs : List ℚ) (q : ℚ) (h : ps.Perm qs) :
    volBeforeOn r bk ps q = volBeforeOn r bk qs q := by
  unfold volBeforeOn
  exact ((h.filter (fun p => r p q)).map (fun p => (bookGet bk p).getD 0)).sum_eq

theorem sumOn_keys (bk : List (ℚ × ℚ)) (h : (keys bk).Nodup) :
    sumOn bk (keys bk) = bookVol bk := by
  induction bk with
  | nil => rfl
  | cons e rest ih =>
      simp only [keys, List.map_cons, List.nodup_cons] at h
      unfold sumOn bookVol
      simp only [keys, List.map_cons, List.sum_cons]
      have he : bookGet (e :: rest) e.1 = some e.2 := by
        simp [bookGet]
      rw [he]
      simp only [Option.getD_some]
      congr 1
      have hmap : (List.map Prod.fst rest).map
          (fun p => (bookGet (e :: rest) p).getD 0) =
          (List.map Prod.fst rest).map (fun p => (bookGet rest p).getD 0) := by
        refine List.map_congr_left ?_
        intro p hp
        have hne : e.1 ≠ p := fun hh => h.1 (hh ▸ hp)
        simp [bookGet, hne]
      rw [hmap]
      have := ih h.2
      unfold sumOn bookVol at this
      simpa [keys] using this

theorem volBeforeOn_keys (r : ℚ → ℚ → Bool) (bk : List (ℚ × ℚ)) (q : ℚ)
    (h : (keys bk).Nodup) :
    volBeforeOn r bk (keys bk) q =
      ((bk.filter (fun e => r e.1 q)).map Prod.snd).sum := by
  induction bk with
  | nil => rfl
  | cons e rest ih =>
      simp only [keys, List.map_cons, List.nodup_cons] at h
      unfold volBeforeOn
      simp only [keys, List.map_cons, List.filter_cons]
      by_cases hr : r e.1 q
      · rw [if_pos hr, if_pos hr]
        simp only [List.map_cons, List.sum_cons]
        have he : bookGet (e :: rest) e.1 = some e.2 := by
          simp [bookGet]
        rw [he]
        simp only [Option.getD_some]
        congr 1
        have hmap : ((List.map Prod.fst rest).filter (fun p => r p q)).map
            (fun p => (bookGet (e :: rest) p).getD 0) =
            ((List.map Prod.fst rest).filter (fun p => r p q)).map
              (fun p => (bookGet rest p).getD 0) := by
          refine List.map_congr_left ?_
          intro p hp
          have hp' := List.mem_of_mem_filter hp
          have hne : e.1 ≠ p := fun hh => h.1 (hh ▸ hp')
          simp [bookGet, hne]
        rw [hmap]
        have := ih h.2
        unfold volBeforeOn at this
        simpa [keys] using this
      · rw [if_neg hr, if_neg hr]
        have hmap : ((List.map Prod.fst rest).filter (fun p => r p q)).map
            (fun p => (bookGet (e :: rest) p).getD 0) =
            ((List.map Prod.fst rest).filter (fun p => r p q)).map
              (fun p => (bookGet rest p).getD 0) := by
          refine List.map_congr_left ?_
          intro p hp
          have hp' := List.mem_of_mem_filter hp
          have hne : e.1 ≠ p := fun hh => h.1 (hh ▸ hp')
          simp [bookGet, hne]
        rw [hmap]
        have := ih h.2
        unfold volBeforeOn at this
        simpa [keys] using this

/-! Dispatch equations of process_order and side selection helpers. -/

/-- The price-to-volume dict of one side of the book. -/
def sideBook (b : LimitOrderBook) : Side → List (ℚ × ℚ)
  | Side.BID => b.bids
  | Side.ASK => b.asks

/-- The opposite side. -/
def oppSide : Side → Side
  | Side.BID => Side.ASK
  | Side.ASK => Side.BID

theorem afterOrder_limit_bid (b : LimitOrderBook) (pr vol t : ℚ) :
    afterOrder b
      { order_type := OrderType.LIMIT, side := Side.BID,
        price := pr, volume := vol } t =
      { bids := addLimit b.bids pr vol
        asks := b.asks
        time := t
        stats :=
          { total_orders := b.stats.total_orders + 1
            limit_orders := b.stats.limit_orders + 1
            market_orders := b.stats.market_orders
            cancel_orders := b.stats.cancel_orders
            total_volume_filled := b.stats.total_volume_filled
            last_order := some
              { order_type := OrderType.LIMIT, side := Side.BID,
                price := pr, volume := vol } } } := rfl

theorem afterOrder_limit_ask (b : LimitOrderBook) (pr vol t : ℚ) :
    afterOrder b
      { order_type := OrderType.LIMIT, side := Side.ASK,
        price := pr, volume := vol } t =
      { bids := b.bids
        asks := addLimit b.asks pr vol
        time := t
        stats :=
          { total_orders := b.stats.total_orders + 1
            limit_orders := b.stats.limit_orders + 1
            market_orders := b.stats.market_orders
            cancel_orders := b.stats.cancel_orders
            total_volume_filled := b.stats.total_volume_filled
            last_order := some
              { order_type := OrderType.LIMIT, side := Side.ASK,
                price := pr, volume := vol } } } := rfl

theorem afterOrder_market_bid (b : LimitOrderBook) (pr vol t : ℚ) :
    afterOrder b
      { order_type := OrderType.MARKET, side := Side.BID,
        price := pr, volume := vol } t =
      { bids := b.bids
        asks := (marketLoop (sortAsc (keys b.asks)) b.asks vol 0).1
        time := t
        stats :=
          { total_orders := b.stats.total_orders + 1
            limit_orders := b.stats.limit_orders
            market_orders := b.stats.market_orders + 1
            cancel_orders := b.stats.cancel_orders
            total_volume_filled := b.stats.total_volume_filled +
              (marketLoop (sortAsc (keys b.asks)) b.asks vol 0).2
            last_order := some
              { order_type := OrderType.MARKET, side := Side.BID,
                price := pr, volume := vol } } } := rfl

theorem afterOrder_market_ask (b : LimitOrderBook) (pr vol t : ℚ) :
    afterOrder b
      { order_type := OrderType.MARKET, side := Side.ASK,
        price := pr, volume := vol } t =
      { bids := (marketLoop (sortDesc (keys b.bids)) b.bids vol 0).1
        asks := b.asks
        time := t
        stats :=
          { total_orders := b.stats.total_orders + 1
            limit_orders := b.stats.limit_orders
            market_orders := b.stats.market_orders + 1
            cancel_orders := b.stats.cancel_orders
            total_volume_filled := b.stats.total_volume_filled +
              (marketLoop (sortDesc (keys b.bids)) b.bids vol 0).2
            last_order := some
              { order_type := OrderType.MARKET, side := Side.ASK,
                price := pr, volume := vol } } } := rfl

theorem afterOrder_cancel_bid (b : LimitOrderBook) (pr vol t : ℚ) :
    afterOrder b
      { order_type := OrderType.CANCEL, side := Side.BID,
        price := pr, volume := vol } t =
      { bids := cancelLevel b.bids pr vol
        asks := b.asks
        time := t
        stats :=
          { total_orders := b.stats.total_orders + 1
            limit_orders := b.stats.limit_orders
            market_orders := b.stats.market_orders
            cancel_orders := b.stats.cancel_orders + 1
            total_volume_filled := b.stats.total_volume_filled
            last_order := some
              { order_type := OrderType.CANCEL, side := Side.BID,
                price := pr, volume := vol } } } := rfl

theorem afterOrder_cancel_ask (b : LimitOrderBook) (pr vol t : ℚ) :
    afterOrder b
      { order_type := OrderType.CANCEL, side := Side.ASK,
        price := pr, volume := vol } t =
      { bids := b.bids
        asks := cancelLevel b.asks pr vol
        time := t
        stats :=
          { total_orders := b.stats.total_orders + 1
            limit_orders := b.stats.limit_orders
            market_orders := b.stats.market_orders
            cancel_orders := b.stats.cancel_orders + 1
            total_volume_filled := b.stats.total_volume_filled
            last_order := some
              { order_type := OrderType.CANCEL, side := Side.ASK,
                price := pr, volume := vol } } } := rfl

theorem wf_lookup (bk : List (ℚ × ℚ)) (hwf : WFBook bk) :
    ∀ p ∈ keys bk, ∃ v, bookGet bk p = some v ∧ 0 ≤ v := by
  intro p hp
  obtain ⟨v, hv⟩ := (mem_keys_iff_bookGet bk p).1 hp
  exact ⟨v, hv, hwf.2 (p, v) (bookGet_mem bk p v hv)⟩

theorem sortAsc_keys_hkeys (bk : List (ℚ × ℚ)) (hwf : WFBook bk) :
    ∀ p ∈ sortAsc (keys bk), ∃ v, bookGet bk p = some v ∧ 0 ≤ v := by
  intro p hp
  exact wf_lookup bk hwf p ((mem_sortAsc (keys bk) p).1 hp)

theorem sortDesc_keys_hkeys (bk : List (ℚ × ℚ)) (hwf : WFBook bk) :
    ∀ p ∈ sortDesc (keys bk), ∃ v, bookGet bk p = some v ∧ 0 ≤ v := by
  intro p hp
  exact wf_lookup bk hwf p ((mem_sortDesc (keys bk) p).1 hp)

theorem sortAsc_keys_nodup (bk : List (ℚ × ℚ)) (h : (keys bk).Nodup) :
    (sortAsc (keys bk)).Nodup :=
  (sortAsc_perm (keys bk)).nodup_iff.2 h

theorem sortDesc_keys_nodup (bk : List (ℚ × ℚ)) (h : (keys bk).Nodup) :
    (sortDesc (keys bk)).Nodup := by
  unfold sortDesc
  exact (List.nodup_reverse).2 (sortAsc_keys_nodup bk h)

theorem marketLoop_sortAsc_filled (bk : List (ℚ × ℚ)) (vol : ℚ)
    (hwf : WFBook bk) (hv : 0 ≤ vol) :
    (marketLoop (sortAsc (keys bk)) bk vol 0).2 = min vol (bookVol bk) := by
  rw [marketLoop_filled _ _ _ _ (sortAsc_keys_nodup bk hwf.1)
    (sortAsc_keys_hkeys bk hwf) hv]
  rw [sumOn_perm bk _ _ (sortAsc_perm (keys bk)), sumOn_keys bk hwf.1]
  ring

theorem marketLoop_sortDesc_filled (bk : List (ℚ × ℚ)) (vol : ℚ)
    (hwf : WFBook bk) (hv : 0 ≤ vol) :
    (marketLoop (sortDesc (keys bk)) bk vol 0).2 = min vol (bookVol bk) := by
  rw [marketLoop_filled _ _ _ _ (sortDesc_keys_nodup bk hwf.1)
    (sortDesc_keys_hkeys bk hwf) hv]
  have hperm : (sortDesc (keys bk)).Perm (keys bk) := by
    unfold sortDesc
    exact (List.reverse_perm (sortAsc (keys bk))).trans (sortAsc_perm (keys bk))
  rw [sumOn_perm bk _ _ hperm, sumOn_keys bk hwf.1]
  ring

theorem marketLoop_sortAsc_vol (bk : List (ℚ × ℚ)) (vol : ℚ)
    (hwf : WFBook bk) :
    (marketLoop (sortAsc (keys bk)) bk vol 0).2 ≤
      bookVol bk - bookVol (marketLoop (sortAsc (keys bk)) bk vol 0).1 ∧
    bookVol bk - bookVol (marketLoop (sortAsc (keys bk)) bk vol 0).1 ≤
      (marketLoop (sortAsc (keys bk)) bk vol 0).2 + eps := by
  have h := marketLoop_vol (sortAsc (keys bk)) bk vol 0
    (sortAsc_keys_nodup bk hwf.1) hwf.1 (sortAsc_keys_hkeys bk hwf)
  constructor
  · linarith [h.1]
  · linarith [h.2]

theorem marketLoop_sortDesc_vol (bk : List (ℚ × ℚ)) (vol : ℚ)
    (hwf : WFBook bk) :
    (marketLoop (sortDesc (keys bk)) bk vol 0).2 ≤
      bookVol bk - bookVol (marketLoop (sortDesc (keys bk)) bk vol 0).1 ∧
    bookVol bk - bookVol (marketLoop (sortDesc (keys bk)) bk vol 0).1 ≤
      (marketLoop (sortDesc (keys bk)) bk vol 0).2 + eps := by
  have h := marketLoop_vol (sortDesc (keys bk)) bk vol 0
    (sortDesc_keys_nodup bk hwf.1) hwf.1 (sortDesc_keys_hkeys bk hwf)
  constructor
  · linarith [h.1]
  · linarith [h.2]

/-- End-to-end scenario book of the spec: LIMIT BID 99.99 at 5, LIMIT BID
99.98 at 3, LIMIT ASK 100.01 at 4, LIMIT ASK 100.02 at 6 on an empty book. -/
def demoBook : LimitOrderBook :=
  afterOrder (afterOrder (afterOrder (afterOrder {}
    { order_type := OrderType.LIMIT, side := Side.BID,
      price := 9999/100, volume := 5 } 0)
    { order_type := OrderType.LIMIT, side := Side.BID,
      price := 9998/100, volume := 3 } 0)
    { order_type := OrderType.LIMIT, side := Side.ASK,
      price := 10001/100, volume := 4 } 0)
    { order_type := OrderType.LIMIT, side := Side.ASK,
      price := 10002/100, volume := 6 } 0

/-- The market order of scenario 2: a market BID of volume 2. -/
def demoMkt : Order :=
  { order_type := OrderType.MARKET, side := Side.BID, price := 0, volume := 2 }

/-- Book used in the C2 counterexample: a single ask level of volume 2 at
price 100, built by processing one limit order. -/
def cexAskBook : LimitOrderBook :=
  afterOrder {}
    { order_type := OrderType.LIMIT, side := Side.ASK,
      price := 100, volume := 2 } 0

/-- Market volume used in the C2 counterexample: half an epsilon short of the
available liquidity, so the last level is left with a sub-epsilon residue. -/
def cexV : ℚ := 2 - 1/2000000000000

/-- Book state after the C2 counterexample market order. -/
def cexAfter : LimitOrderBook :=
  afterOrder cexAskBook
    { order_type := OrderType.MARKET, side := Side.BID,
      price := 0, volume := cexV } 0

/-- C2, counterexample to the claim as stated: with a well-formed ask side of
aggregate volume A = 2 and a positive market volume V = 2 - 5e-13, the filled
amount is min(V, A) = V, but the ask side's aggregate volume drops by 2 (the
sub-epsilon residue of the last level is deleted), not by min(V, A). -/
theorem market_volume_decrease_counterexample :
    WFBook cexAskBook.asks ∧ 0 < cexV ∧
    bookVol cexAskBook.asks - bookVol cexAfter.asks ≠
      min cexV (bookVol cexAskBook.asks) := by
  have h1 : cexAskBook.asks = [(100, 2)] := by
    norm_num [cexAskBook, afterOrder, processOrder, addLimit, bookGet, bookSet]
  have h2 : cexAfter.asks = [] := by
    have hmin : min (2 : ℚ) cexV = cexV := by
      rw [min_eq_right]
      norm_num [cexV]
    norm_num [cexAfter, afterOrder, processOrder, executeMarket, h1, keys,
      sortAsc, insertAsc, marketLoop, bookGet, bookSet, bookErase, cexV,
      eps, hmin]
  refine ⟨?_, ?_, ?_⟩
  · rw [h1]
    constructor
    · simp [keys]
    · intro e he
      simp only [List.mem_singleton] at he
      rw [he]
      norm_num
  · norm_num [cexV]
  · rw [h1, h2]
    have hmin : min cexV (bookVol [(100, 2)]) = cexV := by
      rw [min_eq_left]
      norm_num [bookVol, cexV]
    rw [hmin]
    norm_num [bookVol, cexV]

/-- C2 (amended): processing a MARKET order of nonnegative volume V against a
well-formed opposite side of aggregate available volume A fills exactly
min(V, A) — exactly that amount is added to total_volume_filled — and the
opposite side's aggregate volume decreases by at least min(V, A) and by at
most min(V, A) + 1e-12; the possible excess is the sub-epsilon residue of the
last partially filled level, which is deleted rather than retained. Any excess
unmet order volume vanishes without error. -/
theorem market_order_fill_conservation (b : LimitOrderBook) (o : Order)
    (t : ℚ) (ho : o.order_type = OrderType.MARKET)
    (hwf : WFBook (sideBook b (oppSide o.side)))
    (hv : 0 ≤ o.volume) :
    (afterOrder b o t).stats.total_volume_filled =
      b.stats.total_volume_filled +
        min o.volume (bookVol (sideBook b (oppSide o.side))) ∧
    min o.volume (bookVol (sideBook b (oppSide o.side))) ≤
      bookVol (sideBook b (oppSide o.side)) -
        bookVol (sideBook (afterOrder b o t) (oppSide o.side)) ∧
    bookVol (sideBook b (oppSide o.side)) -
      bookVol (sideBook (afterOrder b o t) (oppSide o.side)) ≤
      min o.volume (bookVol (sideBook b (oppSide o.side))) + eps := by
  obtain ⟨ot, sd, pr, vol⟩ := o
  simp only at ho hv hwf ⊢
  subst ho
  cases sd with
  | BID =>
      simp only [oppSide, sideBook] at hwf ⊢
      rw [afterOrder_market_bid]
      simp only
      have hfill := marketLoop_sortAsc_filled b.asks vol hwf hv
      have hvol := marketLoop_sortAsc_vol b.asks vol hwf
      refine ⟨by rw [hfill], ?_, ?_⟩
      · linarith [hvol.1, hfill]
      · linarith [hvol.2, hfill]
  | ASK =>
      simp only [oppSide, sideBook] at hwf ⊢
      rw [afterOrder_market_ask]
      simp only
      have hfill := marketLoop_sortDesc_filled b.bids vol hwf hv
      have hvol := marketLoop_sortDesc_vol b.bids vol hwf
      refine ⟨by rw [hfill], ?_, ?_⟩
      · linarith [hvol.1, hfill]
      · linarith [hvol.2, hfill]

/-- Witness for C2: the amended theorem applied to the spec's scenario-2 book
state (bids 99.99 at 5 and 99.98 at 3, asks 100.01 at 4 and 100.02 at 6) with
a market BID of volume 2: it fills exactly min(2, 10) = 2 and the ask side's
aggregate volume drops from 10 to 8. -/
theorem market_order_fill_conservation_witness :
    (afterOrder demoBook demoMkt 0).stats.total_volume_filled =
      demoBook.stats.total_volume_filled + 2 ∧
    bookVol (afterOrder demoBook demoMkt 0).asks = 8 := by
  have hwf : WFBook (sideBook demoBook (oppSide demoMkt.side)) := by
    constructor
    · norm_num [demoBook, demoMkt, oppSide, sideBook, afterOrder, processOrder,
        addLimit, bookGet, bookSet, keys]
    · intro e he
      norm_num [demoBook, demoMkt, oppSide, sideBook, afterOrder, processOrder,
        addLimit, bookGet, bookSet] at he
      rcases he with he | he <;> rw [he] <;> norm_num
  have h := market_order_fill_conservation demoBook demoMkt 0 rfl hwf
    (by norm_num [demoMkt])
  have hA : bookVol (sideBook demoBook (oppSide demoMkt.side)) = 10 := by
    norm_num [demoBook, demoMkt, oppSide, sideBook, afterOrder, processOrder,
      addLimit, bookGet, bookSet, bookVol]
  have hmin : min demoMkt.volume (bookVol (sideBook demoBook (oppSide demoMkt.side))) = 2 := by
    rw [hA]
    norm_num [demoMkt]
  constructor
  · rw [h.1, hmin]
  · norm_num [demoBook, demoMkt, afterOrder, processOrder, executeMarket,
      addLimit, bookGet, bookSet, bookErase, keys, sortAsc, insertAsc,
      marketLoop, bookVol, eps, min_def]

theorem volCheaper_eq (bk : List (ℚ × ℚ)) (q : ℚ) (h : (keys bk).Nodup) :
    volBeforeOn (fun a b => decide (a < b)) bk (sortAsc (keys bk)) q =
      volCheaper bk q := by
  rw [volBeforeOn_perm _ _ _ _ _ (sortAsc_perm (keys bk)),
    volBeforeOn_keys _ _ _ h]
  rfl

theorem volAbove_eq (bk : List (ℚ × ℚ)) (q : ℚ) (h : (keys bk).Nodup) :
    volBeforeOn (fun a b => decide (b < a)) bk (sortDesc (keys bk)) q =
      volAbove bk q := by
  have hperm : (sortDesc (keys bk)).Perm (keys bk) := by
    unfold sortDesc
    exact (List.reverse_perm (sortAsc (keys bk))).trans (sortAsc_perm (keys bk))
  rw [volBeforeOn_perm _ _ _ _ _ hperm, volBeforeOn_keys _ _ _ h]
  rfl

theorem sortAsc_pairwise_decide (l : List ℚ) (h : l.Nodup) :
    (sortAsc l).Pairwise (fun a b => decide (a < b) = true) :=
  (sortAsc_pairwise_lt l h).imp (fun hab => by simpa using hab)

theorem sortDesc_pairwise_decide (l : List ℚ) (h : l.Nodup) :
    (sortDesc l).Pairwise (fun a b => decide (b < a) = true) :=
  (sortDesc_pairwise_gt l h).imp (fun hab => by simpa using hab)

/-- C3: a MARKET BID order consumes ask levels in ascending price order
(cheapest first) and a MARKET ASK order consumes bid levels in descending
price order (highest first); the bid (resp. ask) side is untouched. The
consumption order is captured extensionally: a level at price q is untouched
when V does not exceed the aggregate volume of the levels consumed before it
(strictly cheaper asks, resp. strictly higher bids), is deleted when its
post-fill residue would be at most 1e-12, and otherwise is left with exactly
the residue volBefore(q) + volume(q) - V; so remaining volume stops being
consumed once V is exhausted, and a level is only touched after every level
before it in the consumption order is fully consumed. -/
theorem market_order_consumption_order (b : LimitOrderBook) (o : Order)
    (t : ℚ) (ho : o.order_type = OrderType.MARKET)
    (hbid : WFBook b.bids) (hask : WFBook b.asks) :
    (o.side = Side.BID →
      (afterOrder b o t).bids = b.bids ∧
      (∀ q ∈ keys b.asks,
        bookGet (afterOrder b o t).asks q =
          (if o.volume ≤ volCheaper b.asks q then bookGet b.asks q
           else if volCheaper b.asks q + (bookGet b.asks q).getD 0 -
               o.volume ≤ eps then none
           else some (volCheaper b.asks q + (bookGet b.asks q).getD 0 -
             o.volume))) ∧
      (∀ q, q ∉ keys b.asks →
        bookGet (afterOrder b o t).asks q = bookGet b.asks q)) ∧
    (o.side = Side.ASK →
      (afterOrder b o t).asks = b.asks ∧
      (∀ q ∈ keys b.bids,
        bookGet (afterOrder b o t).bids q =
          (if o.volume ≤ volAbove b.bids q then bookGet b.bids q
           else if volAbove b.bids q + (bookGet b.bids q).getD 0 -
               o.volume ≤ eps then none
           else some (volAbove b.bids q + (bookGet b.bids q).getD 0 -
             o.volume))) ∧
      (∀ q, q ∉ keys b.bids →
        bookGet (afterOrder b o t).bids q = bookGet b.bids q)) := by
  obtain ⟨ot, sd, pr, vol⟩ := o
  simp only at ho ⊢
  subst ho
  cases sd with
  | BID =>
      constructor
      · intro _
        rw [afterOrder_market_bid]
        refine ⟨rfl, ?_, ?_⟩
        · intro q hq
          simp only
          have hchar := marketLoop_get_mem (fun a b => decide (a < b))
            (fun x => by simp) (fun a b hab => by
              simp only [decide_eq_true_eq] at hab
              simpa using lt_asymm hab)
            (sortAsc (keys b.asks)) b.asks vol 0
            (sortAsc_pairwise_decide (keys b.asks) hask.1) hask.1
            (sortAsc_keys_hkeys b.asks hask) q
            ((mem_sortAsc (keys b.asks) q).2 hq)
          rw [hchar, volCheaper_eq b.asks q hask.1]
        · intro q hq
          simp only
          exact marketLoop_get_not_mem _ _ _ _ q
            (fun hmem => hq ((mem_sortAsc (keys b.asks) q).1 hmem))
      · intro hcon
        cases hcon
  | ASK =>
      constructor
      · intro hcon
        cases hcon
      · intro _
        rw [afterOrder_market_ask]
        refine ⟨rfl, ?_, ?_⟩
        · intro q hq
          simp only
          have hchar := marketLoop_get_mem (fun a b => decide (b < a))
            (fun x => by simp) (fun a b hab => by
              simp only [decide_eq_true_eq] at hab
              simpa using lt_asymm hab)
            (sortDesc (keys b.bids)) b.bids vol 0
            (sortDesc_pairwise_decide (keys b.bids) hbid.1) hbid.1
            (sortDesc_keys_hkeys b.bids hbid) q
            ((mem_sortDesc (keys b.bids) q).2 hq)
          rw [hchar, volAbove_eq b.bids q hbid.1]
        · intro q hq
          simp only
          exact marketLoop_get_not_mem _ _ _ _ q
            (fun hmem => hq ((mem_sortDesc (keys b.bids) q).1 hmem))

/-- Witness for C3: for the spec's scenario book and a market BID of volume 2,
the theorem yields exactly scenario 2 of the spec: the cheapest ask level at
100.01 drops from 4 to 2, the level at 100.02 is untouched, and the bid side
is untouched. -/
theorem market_order_consumption_order_witness :
    bookGet (afterOrder demoBook demoMkt 0).asks (10001/100) = some 2 ∧
    bookGet (afterOrder demoBook demoMkt 0).asks (10002/100) = some 6 ∧
    (afterOrder demoBook demoMkt 0).bids = demoBook.bids := by
  have hasks : demoBook.asks = [(10001/100, 4), (10002/100, 6)] := by
    norm_num [demoBook, afterOrder, processOrder, addLimit, bookGet, bookSet]
  have hbids : demoBook.bids = [(9999/100, 5), (9998/100, 3)] := by
    norm_num [demoBook, afterOrder, processOrder, addLimit, bookGet, bookSet]
  have hwfa : WFBook demoBook.asks := by
    rw [hasks]
    refine ⟨by norm_num [keys], ?_⟩
    intro e he
    simp only [List.mem_cons, List.mem_singleton] at he
    rcases he with he | he | he
    · rw [he]
      norm_num
    · rw [he]
      norm_num
    · cases he
  have hwfb : WFBook demoBook.bids := by
    rw [hbids]
    refine ⟨by norm_num [keys], ?_⟩
    intro e he
    simp only [List.mem_cons, List.mem_singleton] at he
    rcases he with he | he | he
    · rw [he]
      norm_num
    · rw [he]
      norm_num
    · cases he
  have h := (market_order_consumption_order demoBook demoMkt 0 rfl hwfb hwfa).1 rfl
  refine ⟨?_, ?_, h.1⟩
  · have hq := h.2.1 (10001/100) (by rw [hasks]; norm_num [keys])
    rw [hq]
    norm_num [volCheaper, hasks, bookGet, demoMkt, eps]
  · have hq := h.2.1 (10002/100) (by rw [hasks]; norm_num [keys])
    rw [hq]
    norm_num [volCheaper, hasks, bookGet, demoMkt, eps]

theorem cancelLevel_of_none (bk : List (ℚ × ℚ)) (p vol : ℚ)
    (h : bookGet bk p = none) : cancelLevel bk p vol = bk := by
  unfold cancelLevel
  rw [h]

theorem cancelLevel_of_some (bk : List (ℚ × ℚ)) (p vol v : ℚ)
    (h : bookGet bk p = some v) :
    cancelLevel bk p vol =
      (if v - vol ≤ eps then bookErase (bookSet bk p (v - vol)) p
       else bookSet bk p (v - vol)) := by
  unfold cancelLevel
  rw [h]

/-- C5: processing a LIMIT order adds order.volume to the level at
order.price on order.side (creating the level if absent) and leaves the
opposite side's mapping entirely unchanged, even when the limit price crosses
the opposite side's best price; no matching ever occurs on the LIMIT path, so
crossed states with best_bid above best_ask are reachable. -/
theorem limit_order_adds_level_and_preserves_opposite :
    (∀ (b : LimitOrderBook) (o : Order) (t : ℚ),
      o.order_type = OrderType.LIMIT →
      bookGet (sideBook (afterOrder b o t) o.side) o.price =
        some ((bookGet (sideBook b o.side) o.price).getD 0 + o.volume) ∧
      (∀ q, q ≠ o.price →
        bookGet (sideBook (afterOrder b o t) o.side) q =
          bookGet (sideBook b o.side) q) ∧
      sideBook (afterOrder b o t) (oppSide o.side) =
        sideBook b (oppSide o.side)) ∧
    (∃ bx : LimitOrderBook, ∃ bb ba : ℚ,
      best_bid bx = some bb ∧ best_ask bx = some ba ∧ ba < bb) := by
  constructor
  · intro b o t ho
    obtain ⟨ot, sd, pr, vol⟩ := o
    simp only at ho ⊢
    subst ho
    cases sd with
    | BID =>
        rw [afterOrder_limit_bid]
        simp only [sideBook, oppSide]
        exact ⟨bookGet_bookSet_self b.bids pr _,
          fun q hq => bookGet_bookSet_ne b.bids pr _ q hq, trivial⟩
    | ASK =>
        rw [afterOrder_limit_ask]
        simp only [sideBook, oppSide]
        exact ⟨bookGet_bookSet_self b.asks pr _,
          fun q hq => bookGet_bookSet_ne b.asks pr _ q hq, trivial⟩
  · refine ⟨afterOrder (afterOrder {}
      { order_type := OrderType.LIMIT, side := Side.BID,
        price := 101, volume := 1 } 0)
      { order_type := OrderType.LIMIT, side := Side.ASK,
        price := 100, volume := 1 } 0, 101, 100, ?_, ?_, by norm_num⟩
    · norm_num [afterOrder, processOrder, addLimit, bookGet, bookSet,
        best_bid, listMax, keys]
    · norm_num [afterOrder, processOrder, addLimit, bookGet, bookSet,
        best_ask, listMin, keys]

/-- Witness for C5: a limit BID at 100.03 (through the best ask 100.01) on the
scenario book is merged into the bid side at its price and the ask side is
untouched. -/
theorem limit_order_adds_level_witness :
    bookGet (afterOrder demoBook
      { order_type := OrderType.LIMIT, side := Side.BID,
        price := 10003/100, volume := 7 } 0).bids (10003/100) = some 7 ∧
    (afterOrder demoBook
      { order_type := OrderType.LIMIT, side := Side.BID,
        price := 10003/100, volume := 7 } 0).asks = demoBook.asks := by
  have h := limit_order_adds_level_and_preserves_opposite.1 demoBook
    { order_type := OrderType.LIMIT, side := Side.BID,
      price := 10003/100, volume := 7 } 0 rfl
  constructor
  · have h1 := h.1
    simp only [sideBook] at h1
    rw [h1]
    have : bookGet demoBook.bids (10003/100) = none := by
      norm_num [demoBook, afterOrder, processOrder, addLimit, bookGet, bookSet]
    rw [this]
    norm_num
  · have h3 := h.2.2
    simp only [sideBook, oppSide] at h3
    exact h3

/-- C7: a CANCEL order reduces the level at order.price on order.side by
order.volume when that price exists, deleting the level once its volume drops
to at most 1e-12; cancelling at an absent price is a silent no-op that leaves
both price-level mappings unchanged and raises no error. In every case only
the total and cancel counters and last_order change in the statistics. -/
theorem cancel_order_semantics (b : LimitOrderBook) (o : Order) (t : ℚ)
    (ho : o.order_type = OrderType.CANCEL)
    (hnd : (keys (sideBook b o.side)).Nodup) :
    (bookGet (sideBook b o.side) o.price = none →
      (afterOrder b o t).bids = b.bids ∧ (afterOrder b o t).asks = b.asks) ∧
    (∀ v, bookGet (sideBook b o.side) o.price = some v →
      bookGet (sideBook (afterOrder b o t) o.side) o.price =
        (if v - o.volume ≤ eps then none else some (v - o.volume)) ∧
      (∀ q, q ≠ o.price →
        bookGet (sideBook (afterOrder b o t) o.side) q =
          bookGet (sideBook b o.side) q) ∧
      sideBook (afterOrder b o t) (oppSide o.side) =
        sideBook b (oppSide o.side)) ∧
    (afterOrder b o t).stats =
      { b.stats with
          total_orders := b.stats.total_orders + 1
          cancel_orders := b.stats.cancel_orders + 1
          last_order := some o } := by
  obtain ⟨ot, sd, pr, vol⟩ := o
  simp only at ho hnd ⊢
  subst ho
  cases sd with
  | BID =>
      simp only [sideBook, oppSide] at hnd ⊢
      rw [afterOrder_cancel_bid]
      simp only
      refine ⟨?_, ?_, by trivial⟩
      · intro hn
        rw [cancelLevel_of_none b.bids pr vol hn]
        exact ⟨by trivial, by trivial⟩
      · intro v hv
        rw [cancelLevel_of_some b.bids pr vol v hv]
        by_cases hc : v - vol ≤ eps
        · rw [if_pos hc, if_pos hc, bookErase_bookSet]
          refine ⟨bookGet_bookErase_self b.bids pr hnd, ?_, by trivial⟩
          intro q hq
          rw [bookGet_bookErase_ne b.bids pr q hq]
        · rw [if_neg hc, if_neg hc]
          refine ⟨bookGet_bookSet_self b.bids pr _, ?_, by trivial⟩
          intro q hq
          rw [bookGet_bookSet_ne b.bids pr _ q hq]
  | ASK =>
      simp only [sideBook, oppSide] at hnd ⊢
      rw [afterOrder_cancel_ask]
      simp only
      refine ⟨?_, ?_, by trivial⟩
      · intro hn
        rw [cancelLevel_of_none b.asks pr vol hn]
        exact ⟨by trivial, by trivial⟩
      · intro v hv
        rw [cancelLevel_of_some b.asks pr vol v hv]
        by_cases hc : v - vol ≤ eps
        · rw [if_pos hc, if_pos hc, bookErase_bookSet]
          refine ⟨bookGet_bookErase_self b.asks pr hnd, ?_, by trivial⟩
          intro q hq
          rw [bookGet_bookErase_ne b.asks pr q hq]
        · rw [if_neg hc, if_neg hc]
          refine ⟨bookGet_bookSet_self b.asks pr _, ?_, by trivial⟩
          intro q hq
          rw [bookGet_bookSet_ne b.asks pr _ q hq]

/-- Witness for C7, reproducing scenario 3 of the spec: cancelling 3 then 2 at
bid price 99.99 first leaves the level at 2, then removes it entirely, and a
cancel at an absent price (50) is a no-op. -/
theorem cancel_order_semantics_witness :
    bookGet (afterOrder demoBook
      { order_type := OrderType.CANCEL, side := Side.BID,
        price := 9999/100, volume := 3 } 0).bids (9999/100) = some 2 ∧
    bookGet (afterOrder demoBook
      { order_type := OrderType.CANCEL, side := Side.BID,
        price := 9999/100, volume := 5 } 0).bids (9999/100) = none ∧
    (afterOrder demoBook
      { order_type := OrderType.CANCEL, side := Side.BID,
        price := 50, volume := 3 } 0).bids = demoBook.bids := by
  have hbids : demoBook.bids = [(9999/100, 5), (9998/100, 3)] := by
    norm_num [demoBook, afterOrder, processOrder, addLimit, bookGet, bookSet]
  have hnd : (keys (sideBook demoBook Side.BID)).Nodup := by
    simp only [sideBook]
    rw [hbids]
    norm_num [keys]
  have hget : bookGet (sideBook demoBook Side.BID) (9999/100) = some 5 := by
    simp only [sideBook]
    rw [hbids]
    norm_num [bookGet]
  refine ⟨?_, ?_, ?_⟩
  · have h := ((cancel_order_semantics demoBook
      { order_type := OrderType.CANCEL, side := Side.BID,
        price := 9999/100, volume := 3 } 0 rfl hnd).2.1 5 hget).1
    simp only [sideBook] at h
    rw [h]
    norm_num [eps]
  · have h := ((cancel_order_semantics demoBook
      { order_type := OrderType.CANCEL, side := Side.BID,
        price := 9999/100, volume := 5 } 0 rfl hnd).2.1 5 hget).1
    simp only [sideBook] at h
    rw [h]
    norm_num [eps]
  · have hnone : bookGet (sideBook demoBook Side.BID) 50 = none := by
      simp only [sideBook]
      rw [hbids]
      norm_num [bookGet]
    exact ((cancel_order_semantics demoBook
      { order_type := OrderType.CANCEL, side := Side.BID,
        price := 50, volume := 3 } 0 rfl hnd).1 hnone).1

/-- C6: in every book state, best_bid is exactly the maximum price key of the
bid dict (None when the bid side is empty), best_ask is exactly the minimum
price key of the ask dict (None when the ask side is empty); mid_price equals
round((best_bid + best_ask) / 2, 6) and spread equals
round(best_ask - best_bid, 6), both None whenever either side is empty. -/
theorem derived_price_properties (b : LimitOrderBook) :
    (best_bid b = none ↔ b.bids = []) ∧
    (∀ m, best_bid b = some m → m ∈ keys b.bids ∧ ∀ p ∈ keys b.bids, p ≤ m) ∧
    (best_ask b = none ↔ b.asks = []) ∧
    (∀ m, best_ask b = some m → m ∈ keys b.asks ∧ ∀ p ∈ keys b.asks, m ≤ p) ∧
    (∀ bb ba, best_bid b = some bb → best_ask b = some ba →
      mid_price b = some (pyRound6 ((bb + ba) / 2)) ∧
      spread b = some (pyRound6 (ba - bb))) ∧
    (best_bid b = none ∨ best_ask b = none →
      mid_price b = none ∧ spread b = none) := by
  refine ⟨?_, ?_, ?_, ?_, ?_, ?_⟩
  · unfold best_bid
    rw [listMax_eq_none_iff]
    unfold keys
    exact List.map_eq_nil_iff
  · intro m hm
    exact listMax_spec (keys b.bids) m hm
  · unfold best_ask
    rw [listMin_eq_none_iff]
    unfold keys
    exact List.map_eq_nil_iff
  · intro m hm
    exact listMin_spec (keys b.asks) m hm
  · intro bb ba hbb hba
    unfold mid_price spread
    rw [hbb, hba]
    exact ⟨rfl, rfl⟩
  · intro h
    unfold mid_price spread
    rcases h with h | h
    · rw [h]
      exact ⟨rfl, rfl⟩
    · rw [h]
      rcases best_bid b with _ | bb <;> exact ⟨rfl, rfl⟩

/-- Witness for C6 on the spec's scenario-1 book: best_bid 99.99 (the largest
bid key), best_ask 100.01 (the smallest ask key), mid 100.00, spread 0.02. -/
theorem derived_price_properties_witness :
    best_bid demoBook = some (9999/100) ∧
    best_ask demoBook = some (10001/100) ∧
    mid_price demoBook = some 100 ∧
    spread demoBook = some (2/100) ∧
    (9999/100 : ℚ) ∈ keys demoBook.bids := by
  have hbb : best_bid demoBook = some (9999/100) := by
    norm_num [demoBook, afterOrder, processOrder, addLimit, bookGet, bookSet,
      best_bid, listMax, keys, max_def]
  have hba : best_ask demoBook = some (10001/100) := by
    norm_num [demoBook, afterOrder, processOrder, addLimit, bookGet, bookSet,
      best_ask, listMin, keys, min_def]
  have h := derived_price_properties demoBook
  obtain ⟨hmid, hsp⟩ := h.2.2.2.2.1 (9999/100) (10001/100) hbb hba
  refine ⟨hbb, hba, ?_, ?_, ((h.2.1) (9999/100) hbb).1⟩
  · rw [hmid]
    norm_num [pyRound6, ratFloor]
  · rw [hsp]
    norm_num [pyRound6, ratFloor]

/-- Embedding of the snapshot method as a state transformer: the method body
only reads the book's fields and allocates a fresh BookSnapshot and a fresh
ExecutionStats copy — it assigns no field of self — so the receiver state it
leaves behind is the book unchanged. -/
def snapshotOp (b : LimitOrderBook) (t : ℚ) : LimitOrderBook × BookSnapshot :=
  (b, snapshot b t)

/-- C8: snapshot is read-only and idempotent: it leaves the dicts, the time
and the statistics unchanged, and two calls with one timestamp and no
intervening process_order return identical BookSnapshot values. -/
theorem snapshot_read_only_idempotent (b : LimitOrderBook) (t : ℚ) :
    (snapshotOp b t).1.bids = b.bids ∧
    (snapshotOp b t).1.asks = b.asks ∧
    (snapshotOp b t).1.time = b.time ∧
    (snapshotOp b t).1.stats = b.stats ∧
    (snapshotOp (snapshotOp b t).1 t).2 = (snapshotOp b t).2 :=
  ⟨rfl, rfl, rfl, rfl, rfl⟩

/-- Witness for C8 at the scenario book and timestamp 3. -/
theorem snapshot_read_only_idempotent_witness :
    (snapshotOp demoBook 3).1.bids = demoBook.bids ∧
    (snapshotOp (snapshotOp demoBook 3).1 3).2 = (snapshotOp demoBook 3).2 :=
  ⟨(snapshot_read_only_idempotent demoBook 3).1,
    (snapshot_read_only_idempotent demoBook 3).2.2.2.2⟩

/-! Operation sequences and invariants. -/

/-- One public operation on the book. -/
inductive Op where
  | ord (o : Order) (t : ℚ) : Op
  | reset : Op

/-- Apply one operation. -/
def applyOp (b : LimitOrderBook) : Op → LimitOrderBook
  | Op.ord o t => afterOrder b o t
  | Op.reset => reset b

/-- Apply a sequence of operations from left to right. -/
def applyOps (b : LimitOrderBook) (ops : List Op) : LimitOrderBook :=
  ops.foldl applyOp b

/-- Every level of a side holds strictly more than the deletion epsilon. -/
def AllAbove (bk : List (ℚ × ℚ)) : Prop := ∀ e ∈ bk, eps < e.2

theorem eps_pos : (0 : ℚ) < eps := by norm_num [eps]

theorem allAbove_addLimit (bk : List (ℚ × ℚ)) (p v : ℚ)
    (h : AllAbove bk) (hv : eps < v) : AllAbove (addLimit bk p v) := by
  intro e he
  rcases mem_bookSet bk p _ e he with he | he
  · exact h e he
  · rw [he]
    show eps < (bookGet bk p).getD 0 + v
    rcases hg : bookGet bk p with _ | w
    · simpa using hv
    · have hw : eps < w := h (p, w) (bookGet_mem bk p w hg)
      have h0 := eps_pos
      simp only [Option.getD_some]
      linarith

theorem allAbove_cancelLevel (bk : List (ℚ × ℚ)) (p v : ℚ)
    (h : AllAbove bk) : AllAbove (cancelLevel bk p v) := by
  rcases hg : bookGet bk p with _ | w
  · rw [cancelLevel_of_none bk p v hg]
    exact h
  · rw [cancelLevel_of_some bk p v w hg]
    by_cases hc : w - v ≤ eps
    · rw [if_pos hc, bookErase_bookSet]
      intro e he
      exact h e (mem_bookErase bk p e he)
    · rw [if_neg hc]
      intro e he
      rcases mem_bookSet bk p _ e he with he | he
      · exact h e he
      · rw [he]
        exact lt_of_not_le hc

theorem allAbove_stepBook (bk : List (ℚ × ℚ)) (p rem : ℚ)
    (h : AllAbove bk) : AllAbove (stepBook bk p rem) := by
  unfold stepBook
  by_cases hc : (bookGet bk p).getD 0 - min ((bookGet bk p).getD 0) rem ≤ eps
  · rw [if_pos hc, bookErase_bookSet]
    intro e he
    exact h e (mem_bookErase bk p e he)
  · rw [if_neg hc]
    intro e he
    rcases mem_bookSet bk p _ e he with he | he
    · exact h e he
    · rw [he]
      exact lt_of_not_le hc

theorem allAbove_marketLoop (ps : List ℚ) (bk : List (ℚ × ℚ)) (rem acc : ℚ)
    (h : AllAbove bk) : AllAbove (marketLoop ps bk rem acc).1 := by
  induction ps generalizing bk rem acc with
  | nil => exact h
  | cons p rest ih =>
      by_cases hrem : rem ≤ 0
      · rw [marketLoop_of_nonpos _ _ _ _ hrem]
        exact h
      · rw [marketLoop_cons_pos _ _ _ _ _ hrem]
        exact ih _ _ _ (allAbove_stepBook bk p rem h)

theorem afterOrder_allAbove (b : LimitOrderBook) (o : Order) (t : ℚ)
    (hb : AllAbove b.bids) (ha : AllAbove b.asks)
    (ho : o.order_type = OrderType.LIMIT → eps < o.volume) :
    AllAbove (afterOrder b o t).bids ∧ AllAbove (afterOrder b o t).asks := by
  obtain ⟨ot, sd, pr, vol⟩ := o
  simp only at ho
  cases ot with
  | LIMIT =>
      have hv : eps < vol := ho rfl
      cases sd with
      | BID =>
          rw [afterOrder_limit_bid]
          exact ⟨allAbove_addLimit b.bids pr vol hb hv, ha⟩
      | ASK =>
          rw [afterOrder_limit_ask]
          exact ⟨hb, allAbove_addLimit b.asks pr vol ha hv⟩
  | MARKET =>
      cases sd with
      | BID =>
          rw [afterOrder_market_bid]
          exact ⟨hb, allAbove_marketLoop _ b.asks vol 0 ha⟩
      | ASK =>
          rw [afterOrder_market_ask]
          exact ⟨allAbove_marketLoop _ b.bids vol 0 hb, ha⟩
  | CANCEL =>
      cases sd with
      | BID =>
          rw [afterOrder_cancel_bid]
          exact ⟨allAbove_cancelLevel b.bids pr vol hb, ha⟩
      | ASK =>
          rw [afterOrder_cancel_ask]
          exact ⟨hb, allAbove_cancelLevel b.asks pr vol ha⟩

theorem applyOps_allAbove (ops : List Op) (b : LimitOrderBook)
    (hb : AllAbove b.bids) (ha : AllAbove b.asks)
    (hops : ∀ o t, Op.ord o t ∈ ops →
      o.order_type = OrderType.LIMIT → eps < o.volume) :
    AllAbove (applyOps b ops).bids ∧ AllAbove (applyOps b ops).asks := by
  induction ops generalizing b with
  | nil => exact ⟨hb, ha⟩
  | cons op rest ih =>
      have hstep : AllAbove (applyOp b op).bids ∧ AllAbove (applyOp b op).asks := by
        cases op with
        | ord o t =>
            exact afterOrder_allAbove b o t hb ha
              (hops o t (List.mem_cons_self _ _))
        | reset =>
            refine ⟨?_, ?_⟩ <;> intro e he <;> cases he
      exact ih (applyOp b op) hstep.1 hstep.2
        (fun o t hmem => hops o t (List.mem_cons_of_mem _ hmem))

theorem snapshot_bid_volumes_above (b : LimitOrderBook)
    (hb : AllAbove b.bids) : ∀ v ∈ (snapshot b 0).bid_volumes, eps < v := by
  intro v hv
  unfold snapshot at hv
  simp only [List.mem_map] at hv
  obtain ⟨p, hp, rfl⟩ := hv
  have hpk : p ∈ keys b.bids := (mem_sortDesc (keys b.bids) p).1 hp
  obtain ⟨w, hw⟩ := (mem_keys_iff_bookGet b.bids p).1 hpk
  rw [hw]
  exact hb (p, w) (bookGet_mem b.bids p w hw)

theorem snapshot_ask_volumes_above (b : LimitOrderBook)
    (ha : AllAbove b.asks) : ∀ v ∈ (snapshot b 0).ask_volumes, eps < v := by
  intro v hv
  unfold snapshot at hv
  simp only [List.mem_map] at hv
  obtain ⟨p, hp, rfl⟩ := hv
  have hpk : p ∈ keys b.asks := (mem_sortAsc (keys b.asks) p).1 hp
  obtain ⟨w, hw⟩ := (mem_keys_iff_bookGet b.asks p).1 hpk
  rw [hw]
  exact ha (p, w) (bookGet_mem b.asks p w hw)

/-- Book used in the C4 counterexample: one LIMIT BID of the positive volume
1e-13 on an empty book. -/
def tinyBook : LimitOrderBook :=
  afterOrder {}
    { order_type := OrderType.LIMIT, side := Side.BID,
      price := 100, volume := 1/10000000000000 } 0

/-- C4, counterexample to the claim as stated: a LIMIT order of positive
volume 1e-13 creates a level that is retained with volume 1e-13 ≤ 1e-12 —
it appears in the bid mapping and in the snapshot's volume sequence. -/
theorem level_deletion_counterexample :
    0 < (1/10000000000000 : ℚ) ∧
    bookGet tinyBook.bids 100 = some (1/10000000000000) ∧
    (1/10000000000000 : ℚ) ≤ eps ∧
    (1/10000000000000 : ℚ) ∈ (snapshot tinyBook 0).bid_volumes := by
  have hb : tinyBook.bids = [(100, 1/10000000000000)] := by
    norm_num [tinyBook, afterOrder, processOrder, addLimit, bookGet, bookSet]
  refine ⟨by norm_num, ?_, by norm_num [eps], ?_⟩
  · rw [hb]
    norm_num [bookGet]
  · norm_num [snapshot, hb, keys, sortDesc, sortAsc, insertAsc, bookGet]

/-- C4 (amended): starting from the empty book, after any sequence of
process_order calls and resets in which every LIMIT order has volume
strictly above 1e-12 (and every order positive volume), no price is retained
with volume ≤ 1e-12: every level of both mappings and every snapshot volume
is strictly above 1e-12. Without the strengthened bound on LIMIT volumes the
claim fails (a LIMIT of volume 1e-13 creates a retained sub-epsilon level);
CANCEL and MARKET orders of any volume never leave a sub-epsilon level. -/
theorem level_deletion_invariant (ops : List Op)
    (hops : ∀ o t, Op.ord o t ∈ ops →
      0 < o.volume ∧ (o.order_type = OrderType.LIMIT → eps < o.volume)) :
    (∀ e ∈ (applyOps {} ops).bids, eps < e.2) ∧
    (∀ e ∈ (applyOps {} ops).asks, eps < e.2) ∧
    (∀ v ∈ (snapshot (applyOps {} ops) 0).bid_volumes, eps < v) ∧
    (∀ v ∈ (snapshot (applyOps {} ops) 0).ask_volumes, eps < v) := by
  have h := applyOps_allAbove ops {} (fun e he => by cases he)
    (fun e he => by cases he)
    (fun o t hmem hlim => (hops o t hmem).2 hlim)
  exact ⟨h.1, h.2, snapshot_bid_volumes_above _ h.1,
    snapshot_ask_volumes_above _ h.2⟩

/-- Sequence used by the C4 witness: a limit bid of 5 at 99.99, a market ask
of 3 and a cancel of 1 at the same price, leaving the level at volume 1. -/
def c4ops : List Op := [
  Op.ord { order_type := OrderType.LIMIT, side := Side.BID,
           price := 9999/100, volume := 5 } 0,
  Op.ord { order_type := OrderType.MARKET, side := Side.ASK,
           price := 0, volume := 3 } 1,
  Op.ord { order_type := OrderType.CANCEL, side := Side.BID,
           price := 9999/100, volume := 1 } 2]

/-- Witness for C4 (amended): running the c4ops sequence from the empty book
leaves the single bid level (99.99, 1); the amended invariant applied to that
concrete level shows its volume is above epsilon. -/
theorem level_deletion_invariant_witness :
    ((9999/100 : ℚ), (1 : ℚ)) ∈ (applyOps {} c4ops).bids ∧
    eps < ((9999/100 : ℚ), (1 : ℚ)).2 := by
  have hbids : (applyOps {} c4ops).bids = [(9999/100, 1)] := by
    norm_num [c4ops, applyOps, applyOp, afterOrder, processOrder, addLimit,
      bookGet, bookSet, bookErase, executeMarket, marketLoop, keys, sortAsc,
      sortDesc, insertAsc, cancelLevel, eps, min_def]
  have hmem : ((9999/100 : ℚ), (1 : ℚ)) ∈ (applyOps {} c4ops).bids := by
    rw [hbids]
    exact List.mem_singleton.2 rfl
  have h := level_deletion_invariant c4ops
    (by
      intro o t hmem'
      simp only [c4ops, List.mem_cons, List.not_mem_nil, or_false] at hmem'
      rcases hmem' with h1 | h1 | h1
      · injection h1 with ho ht
        subst ho
        exact ⟨by norm_num, fun _ => by norm_num [eps]⟩
      · injection h1 with ho ht
        subst ho
        exact ⟨by norm_num, fun hlim => by simp at hlim⟩
      · injection h1 with ho ht
        subst ho
        exact ⟨by norm_num, fun hlim => by simp at hlim⟩)
  exact ⟨hmem, h.1 ((9999/100 : ℚ), (1 : ℚ)) hmem⟩

/-- Book states reachable from a freshly constructed book by process_order
and reset calls. -/
inductive Reachable : LimitOrderBook → Prop where
  | init : Reachable {}
  | step (b : LimitOrderBook) (o : Order) (t : ℚ) :
      Reachable b → Reachable (afterOrder b o t)
  | cleared (b : LimitOrderBook) : Reachable b → Reachable (reset b)

theorem afterOrder_counters (b : LimitOrderBook) (o : Order) (t : ℚ) :
    (afterOrder b o t).stats.total_orders = b.stats.total_orders + 1 ∧
    (afterOrder b o t).stats.limit_orders = b.stats.limit_orders +
      (if o.order_type = OrderType.LIMIT then 1 else 0) ∧
    (afterOrder b o t).stats.market_orders = b.stats.market_orders +
      (if o.order_type = OrderType.MARKET then 1 else 0) ∧
    (afterOrder b o t).stats.cancel_orders = b.stats.cancel_orders +
      (if o.order_type = OrderType.CANCEL then 1 else 0) := by
  obtain ⟨ot, sd, pr, vol⟩ := o
  cases ot <;> cases sd <;>
    simp [afterOrder_limit_bid, afterOrder_limit_ask, afterOrder_market_bid,
      afterOrder_market_ask, afterOrder_cancel_bid, afterOrder_cancel_ask]

/-- C10: in every state reachable from a fresh book by process_order and
reset calls, total_orders = limit_orders + market_orders + cancel_orders; and
each of the four counters is non-decreasing across every process_order call. -/
theorem stats_counter_invariant :
    (∀ b, Reachable b → b.stats.total_orders =
      b.stats.limit_orders + b.stats.market_orders + b.stats.cancel_orders) ∧
    (∀ (b : LimitOrderBook) (o : Order) (t : ℚ),
      b.stats.total_orders ≤ (afterOrder b o t).stats.total_orders ∧
      b.stats.limit_orders ≤ (afterOrder b o t).stats.limit_orders ∧
      b.stats.market_orders ≤ (afterOrder b o t).stats.market_orders ∧
      b.stats.cancel_orders ≤ (afterOrder b o t).stats.cancel_orders) := by
  constructor
  · intro b hb
    induction hb with
    | init => rfl
    | step b o t hb ih =>
        obtain ⟨h1, h2, h3, h4⟩ := afterOrder_counters b o t
        rw [h1, h2, h3, h4, ih]
        obtain ⟨ot, sd, pr, vol⟩ := o
        cases ot <;> simp <;> omega
    | cleared b hb ih => rfl
  · intro b o t
    obtain ⟨h1, h2, h3, h4⟩ := afterOrder_counters b o t
    rw [h1, h2, h3, h4]
    refine ⟨by omega, ?_, ?_, ?_⟩ <;> split <;> omega

/-- Witness for C10: the identity holds at the fresh book, and the counters do
not decrease when the scenario market order is processed on the scenario
book. -/
theorem stats_counter_invariant_witness :
    ({} : LimitOrderBook).stats.total_orders =
      ({} : LimitOrderBook).stats.limit_orders +
      ({} : LimitOrderBook).stats.market_orders +
      ({} : LimitOrderBook).stats.cancel_orders ∧
    demoBook.stats.total_orders ≤
      (afterOrder demoBook demoMkt 0).stats.total_orders :=
  ⟨stats_counter_invariant.1 {} Reachable.init,
    (stats_counter_invariant.2 demoBook demoMkt 0).1⟩

/-- Configuration of the seeding scenario: default knobs with
n_initial_levels = 5. -/
def cfg5 : GeneratorConfig := { n_initial_levels := 5 }

/-- C9: seed_book() on an empty book places, for i = 1..n_initial_levels, one
BID limit order at mid - i*tick and one ASK limit order at mid + i*tick
(mid = initial_price, prices rounded to 6 decimals), each with an
independently drawn integer volume in [initial_vol_min, initial_vol_max]; with
n_initial_levels = 5 and the default price grid the book gets exactly 5
distinct bid price levels (99.99 down to 99.95) and exactly 5 distinct ask
price levels (100.01 up to 100.05), the bid level at 99.99 holding the first
draw and the ask level at 100.01 the second. -/
theorem seed_book_five_levels (vols : ℕ → ℤ)
    (hv : ∀ k, cfg5.initial_vol_min ≤ vols k ∧ vols k ≤ cfg5.initial_vol_max) :
    keys (seedBook cfg5 vols {}).bids =
      [9999/100, 9998/100, 9997/100, 9996/100, 9995/100] ∧
    keys (seedBook cfg5 vols {}).asks =
      [10001/100, 10002/100, 10003/100, 10004/100, 10005/100] ∧
    (keys (seedBook cfg5 vols {}).bids).length = 5 ∧
    (keys (seedBook cfg5 vols {}).bids).Nodup ∧
    (keys (seedBook cfg5 vols {}).asks).length = 5 ∧
    (keys (seedBook cfg5 vols {}).asks).Nodup ∧
    (∀ e ∈ (seedBook cfg5 vols {}).bids,
      (cfg5.initial_vol_min : ℚ) ≤ e.2 ∧ e.2 ≤ (cfg5.initial_vol_max : ℚ)) ∧
    (∀ e ∈ (seedBook cfg5 vols {}).asks,
      (cfg5.initial_vol_min : ℚ) ≤ e.2 ∧ e.2 ≤ (cfg5.initial_vol_max : ℚ)) ∧
    bookGet (seedBook cfg5 vols {}).bids (9999/100) = some ((vols 0 : ℤ) : ℚ) ∧
    bookGet (seedBook cfg5 vols {}).asks (10001/100) = some ((vols 1 : ℤ) : ℚ) := by
  have hrange : List.range 5 = [0, 1, 2, 3, 4] := rfl
  have hb1 : pyRound6 (9999/100) = 9999/100 := by norm_num [pyRound6, ratFloor]
  have hb2 : pyRound6 (4999/50) = 4999/50 := by norm_num [pyRound6, ratFloor]
  have hb3 : pyRound6 (9997/100) = 9997/100 := by norm_num [pyRound6, ratFloor]
  have hb4 : pyRound6 (2499/25) = 2499/25 := by norm_num [pyRound6, ratFloor]
  have hb5 : pyRound6 (1999/20) = 1999/20 := by norm_num [pyRound6, ratFloor]
  have ha1 : pyRound6 (10001/100) = 10001/100 := by norm_num [pyRound6, ratFloor]
  have ha2 : pyRound6 (5001/50) = 5001/50 := by norm_num [pyRound6, ratFloor]
  have ha3 : pyRound6 (10003/100) = 10003/100 := by norm_num [pyRound6, ratFloor]
  have ha4 : pyRound6 (2501/25) = 2501/25 := by norm_num [pyRound6, ratFloor]
  have ha5 : pyRound6 (2001/20) = 2001/20 := by norm_num [pyRound6, ratFloor]
  have hbids : (seedBook cfg5 vols {}).bids =
      [(9999/100, ((vols 0 : ℤ) : ℚ)), (9998/100, ((vols 2 : ℤ) : ℚ)),
       (9997/100, ((vols 4 : ℤ) : ℚ)), (9996/100, ((vols 6 : ℤ) : ℚ)),
       (9995/100, ((vols 8 : ℤ) : ℚ))] := by
    norm_num [seedBook, hrange, afterOrder, processOrder, addLimit, bookGet,
      bookSet, cfg5, hb1, hb2, hb3, hb4, hb5, ha1, ha2, ha3, ha4, ha5]
  have hasks : (seedBook cfg5 vols {}).asks =
      [(10001/100, ((vols 1 : ℤ) : ℚ)), (10002/100, ((vols 3 : ℤ) : ℚ)),
       (10003/100, ((vols 5 : ℤ) : ℚ)), (10004/100, ((vols 7 : ℤ) : ℚ)),
       (10005/100, ((vols 9 : ℤ) : ℚ))] := by
    norm_num [seedBook, hrange, afterOrder, processOrder, addLimit, bookGet,
      bookSet, cfg5, hb1, hb2, hb3, hb4, hb5, ha1, ha2, ha3, ha4, ha5]
  have hvq : ∀ k, (cfg5.initial_vol_min : ℚ) ≤ ((vols k : ℤ) : ℚ) ∧
      ((vols k : ℤ) : ℚ) ≤ (cfg5.initial_vol_max : ℚ) := by
    intro k
    constructor
    · exact_mod_cast (hv k).1
    · exact_mod_cast (hv k).2
  refine ⟨?_, ?_, ?_, ?_, ?_, ?_, ?_, ?_, ?_, ?_⟩
  · rw [hbids]
    norm_num [keys]
  · rw [hasks]
    norm_num [keys]
  · rw [hbids]
    norm_num [keys]
  · rw [hbids]
    norm_num [keys]
  · rw [hasks]
    norm_num [keys]
  · rw [hasks]
    norm_num [keys]
  · rw [hbids]
    intro e he
    simp only [List.mem_cons, List.not_mem_nil, or_false] at he
    rcases he with he | he | he | he | he <;> rw [he] <;> exact hvq _
  · rw [hasks]
    intro e he
    simp only [List.mem_cons, List.not_mem_nil, or_false] at he
    rcases he with he | he | he | he | he <;> rw [he] <;> exact hvq _
  · rw [hbids]
    norm_num [bookGet]
  · rw [hasks]
    norm_num [bookGet]

/-- Witness for C9: seeding with the constant draw 3 (inside the volume
bounds) gives exactly the 5 + 5 expected levels, each of volume 3. -/
theorem seed_book_five_levels_witness :
    keys (seedBook cfg5 (fun _ => 3) {}).bids =
      [9999/100, 9998/100, 9997/100, 9996/100, 9995/100] ∧
    (keys (seedBook cfg5 (fun _ => 3) {}).asks).length = 5 ∧
    bookGet (seedBook cfg5 (fun _ => 3) {}).bids (9999/100) = some 3 := by
  have h := seed_book_five_levels (fun _ => 3)
    (fun k => by norm_num [cfg5])
  refine ⟨h.1, h.2.2.2.2.1, ?_⟩
  have := h.2.2.2.2.2.2.2.2.1
  simpa using this

/-- Book used for the C1 divergence: two bid levels, 100 at volume 4 and 99
at volume 4, built through process_order. -/
def cancelDemoBook : LimitOrderBook :=
  afterOrder (afterOrder {}
    { order_type := OrderType.LIMIT, side := Side.BID,
      price := 100, volume := 4 } 0)
    { order_type := OrderType.LIMIT, side := Side.BID,
      price := 99, volume := 4 } 0

/-- C1: the generator's pseudo-random source is NOT self-contained. The
cancel-target pick of _random_cancel goes through random.choice, which reads
and advances the PROCESS-GLOBAL random module state (the state random.seed in
the constructor re-seeds for the whole process). With identical configuration,
book state and instance-local NumPy draws, one external draw from the global
random module by other code in the process (externalDraw) changes which level
the next cancel targets: the emitted order moves from price 100 to price 99,
so the downstream snapshot sequences of two otherwise identical generators
diverge. -/
theorem random_cancel_global_state_dependence :
    (randomCancel {} cancelDemoBook
        { stream := fun n => n, idx := 0 } (1/2) 0 1 1).1 ≠
      (randomCancel {} cancelDemoBook
        (externalDraw { stream := fun n => n, idx := 0 }) (1/2) 0 1 1).1 ∧
    (randomCancel {} cancelDemoBook
        { stream := fun n => n, idx := 0 } (1/2) 0 1 1).1 =
      { order_type := OrderType.CANCEL, side := Side.BID,
        price := 100, volume := 2 } ∧
    (randomCancel {} cancelDemoBook
        (externalDraw { stream := fun n => n, idx := 0 }) (1/2) 0 1 1).1 =
      { order_type := OrderType.CANCEL, side := Side.BID,
        price := 99, volume := 2 } := by
  have hbids : cancelDemoBook.bids = [(100, 4), (99, 4)] := by
    norm_num [cancelDemoBook, afterOrder, processOrder, addLimit, bookGet,
      bookSet]
  have hasks : cancelDemoBook.asks = [] := by
    norm_num [cancelDemoBook, afterOrder, processOrder, addLimit, bookGet,
      bookSet]
  have hbp : (snapshot cancelDemoBook 0).bid_prices = [100, 99] := by
    unfold snapshot
    rw [hbids]
    norm_num [keys, sortDesc, sortAsc, insertAsc]
  have hbv : (snapshot cancelDemoBook 0).bid_volumes = [4, 4] := by
    unfold snapshot
    rw [hbids]
    norm_num [keys, sortDesc, sortAsc, insertAsc, bookGet]
  have hap : (snapshot cancelDemoBook 0).ask_prices = [] := by
    unfold snapshot
    rw [hasks]
    norm_num [keys, sortAsc]
  have hav : (snapshot cancelDemoBook 0).ask_volumes = [] := by
    unfold snapshot
    rw [hasks]
    norm_num [keys, sortAsc]
  have hround : pyRound6 (2 : ℚ) = 2 := by
    norm_num [pyRound6, ratFloor]
  have h1 : (randomCancel {} cancelDemoBook
      { stream := fun n => n, idx := 0 } (1/2) 0 1 1).1 =
      { order_type := OrderType.CANCEL, side := Side.BID,
        price := 100, volume := 2 } := by
    simp only [randomCancel]
    rw [hbp, hbv, hap, hav]
    norm_num [pyChoice, hround]
  have h2 : (randomCancel {} cancelDemoBook
      (externalDraw { stream := fun n => n, idx := 0 }) (1/2) 0 1 1).1 =
      { order_type := OrderType.CANCEL, side := Side.BID,
        price := 99, volume := 2 } := by
    simp only [randomCancel]
    rw [hbp, hbv, hap, hav]
    norm_num [pyChoice, externalDraw, hround]
  refine ⟨?_, h1, h2⟩
  rw [h1, h2]
  intro hcon
  have := congrArg Order.price hcon
  norm_num at this

end LOB
